import Mathlib

/-!
A shallow embedding of `src/datamodel_code_generator/lithic_cli.py`, the
schema-synchronization pipeline of this repository: configuration merging,
its memoized repository clone, the textual diff used by verify mode, and the
publish/verify reconciliation of `main`, modelled over an explicit
association-list file system.  External collaborators (the code generator,
`ruff`, `git`) are modelled as oracles at their interface boundary, exactly
as the pipeline observes them.
-/

namespace Lithic

/-- The `default` block of the configuration (class `BaseModelConfig` in the
source): four required string fields. -/
structure BaseModelConfig where
  repo : String
  branch : String
  args : String
  output_module_path : String
deriving DecidableEq

/-- A per-source entry (class `SourceConfig`): `input` is required, the four
override fields are optional.  Pydantic distinguishes a field never given in
the raw definition (`none` here, which `dict` with `exclude_unset` drops)
from a field explicitly given as `null` (`some none`) and from a field
explicitly given a string (`some (some v)`). -/
structure SourceConfig where
  input : String
  repo : Option (Option String) := none
  branch : Option (Option String) := none
  args : Option (Option String) := none
  output_module_path : Option (Option String) := none
deriving DecidableEq

/-- The root configuration (class `LithicConfig`): an ordered list of sources
plus one default block. -/
structure LithicConfig where
  sources : List SourceConfig
  default : BaseModelConfig
deriving DecidableEq

/-- One field of `merge_config`'s dict loop: the explicitly-set source value
overrides the default only when it is not `None` (`if value is not None`). -/
def mergeField (dflt : String) (ov : Option (Option String)) : String :=
  match ov with
  | some (some v) => v
  | _ => dflt

/-- `merge_config(default_config, source_config)`: start from the default's
dict, overlay every explicitly-set, non-`None` field of the source, and build
a `SourceConfig` from the merged dict (so every override field ends up
explicitly set to a concrete string). -/
def merge_config (d : BaseModelConfig) (s : SourceConfig) : SourceConfig :=
  { input := s.input
  , repo := some (some (mergeField d.repo s.repo))
  , branch := some (some (mergeField d.branch s.branch))
  , args := some (some (mergeField d.args s.args))
  , output_module_path := some (some (mergeField d.output_module_path s.output_module_path)) }

/-- Reading a concrete attribute value off a merged config, as Python
attribute access does (after `merge_config` the field is always a string). -/
def getStr (ov : Option (Option String)) : String :=
  match ov with
  | some (some v) => v
  | _ => ""

/-- The resolved output location of a source: `merge_config(default, source)`
followed by the `.output_module_path` attribute access in `main`. -/
def outPath (d : BaseModelConfig) (s : SourceConfig) : String :=
  getStr (merge_config d s).output_module_path

/-! ## The textual comparison of `run_diff`

`run_diff` opens both files in text mode (so Python's universal-newline
translation rewrites `"\r\n"` and `"\r"` to `"\n"` while reading), splits
each text into its list of lines with `str.splitlines`, and builds a unified
diff of the two line lists; it raises `ValueError` with the joined diff text
exactly when the diff is non-empty. -/

/-- The line-boundary characters of `str.splitlines`. -/
def isLineBreakChar (c : Char) : Bool :=
  c = '\n' || c = '\r' || c = '\x0b' || c = '\x0c' ||
    c = '\x1c' || c = '\x1d' || c = '\x1e' || c = '\x85' || c = '\u2028' || c = '\u2029'

/-- Universal-newline translation performed by `open(..)` in text mode:
`"\r\n"` and a lone `"\r"` both become `"\n"`. -/
def univNewlines : List Char → List Char
  | [] => []
  | '\r' :: '\n' :: rest => '\n' :: univNewlines rest
  | '\r' :: rest => '\n' :: univNewlines rest
  | c :: rest => c :: univNewlines rest

/-- `str.splitlines` on universal-newline-translated text (which contains no
`"\r\n"` pairs, so every remaining break character ends a line by itself);
`acc` holds the current line's characters in reverse. -/
def splitlinesAux : List Char → List Char → List String
  | [], acc => if acc.isEmpty then [] else [String.mk acc.reverse]
  | c :: rest, acc =>
    if isLineBreakChar c then String.mk acc.reverse :: splitlinesAux rest []
    else splitlinesAux rest (c :: acc)

/-- `open(f).read()` of a file whose raw content is `content`. -/
def readText (content : String) : String :=
  String.mk (univNewlines content.data)

/-- `open(f).read().splitlines()`: the line list `run_diff` compares. -/
def readLines (content : String) : List String :=
  splitlinesAux (readText content).data []

/-- Length of the common prefix of two line lists. -/
def commonPrefixLen : List String → List String → Nat
  | a :: as, b :: bs => if a = b then commonPrefixLen as bs + 1 else 0
  | _, _ => 0

/-- The changed lines of `difflib.unified_diff`'s single hunk: after trimming
the common prefix and common suffix, the remaining lines of the first list
prefixed with `"-"` followed by the remaining lines of the second prefixed
with `"+"` (context lines and multi-hunk splitting of `difflib` are elided;
what matters to the pipeline is which lines changed and when this is empty). -/
def diffCore (a b : List String) : List String :=
  let p := commonPrefixLen a b
  let a1 := a.drop p
  let b1 := b.drop p
  let s := commonPrefixLen a1.reverse b1.reverse
  ((a1.take (a1.length - s)).map (fun l => "-" ++ l)) ++
    ((b1.take (b1.length - s)).map (fun l => "+" ++ l))

/-- `difflib.unified_diff(text1.splitlines(), text2.splitlines(), lineterm='')`
as a list: empty when the line lists agree, otherwise the two file headers,
a hunk header and the changed lines. -/
def unified_diff (a b : List String) : List String :=
  match diffCore a b with
  | [] => []
  | core => "--- " :: "+++ " :: "@@" :: core

/-- The `ValueError` message raised by `run_diff` on a non-empty diff. -/
def diffMsg (a b : List String) : String :=
  "Schema comparison failed:\n" ++ String.intercalate "\n" (unified_diff a b)

/-- `run_diff(f1, f2)` on files with raw contents `c1` and `c2`: read both in
text mode, split into lines, diff; raise exactly when the diff is non-empty. -/
def run_diff (c1 c2 : String) : Except String Unit :=
  match unified_diff (readLines c1) (readLines c2) with
  | [] => Except.ok ()
  | _ => Except.error (diffMsg (readLines c1) (readLines c2))

example : readLines "a\r\nb" = ["a", "b"] := by decide
example : readLines "a\rb" = ["a", "b"] := by decide
example : readLines "a\nb\n" = ["a", "b"] := by decide
example : readLines "" = [] := by decide
example : readLines "\n" = [""] := by decide
example : run_diff "x\ny\n" "x\r\ny" = Except.ok () := rfl
example : run_diff "x" "y" =
    Except.error "Schema comparison failed:\n--- \n+++ \n@@\n-x\n+y" := rfl

/-! ## The file system

The authoritative output trees live on the local file system, modelled as an
association list from file path to file content (first binding wins, as
a real file system has one content per path).  Scratch directories created
by `tempfile.TemporaryDirectory` are disjoint from every output location and
are kept out of this map: each source's generated scratch tree is carried
explicitly as its own listing. -/

/-- A file system: file path to raw content. -/
abbrev FS := List (String × String)

/-- Content of the file at `p`, when it exists. -/
def lookupFS (fs : FS) (p : String) : Option String :=
  (fs.find? (fun e => e.1 == p)).map Prod.snd

/-- `p` lies strictly inside directory `d`: `d ++ "/"` is a prefix of `p`. -/
def underDir (d p : String) : Bool :=
  List.isPrefixOf (d ++ "/").data p.data

/-- `list_files(directory)`: every file path below the directory
(`os.walk` yields all files in all nested subdirectories). -/
def list_files (d : String) (fs : FS) : List String :=
  (fs.map Prod.fst).filter (fun p => underDir d p)

/-- Writing one file (creating or overwriting). -/
def fsWrite (fs : FS) (p c : String) : FS :=
  (p, c) :: fs.filter (fun e => e.1 != p)

/-- `shutil.rmtree(path, ignore_errors=True)`: every file below the path is
removed. -/
def rmtree (d : String) (fs : FS) : FS :=
  fs.filter (fun e => !(underDir d e.1))

/-- A generated output listing: the files found under one source's
`final_path` scratch directory after `create_module`, the generator and
`ruff` ran, as relative path and content pairs. -/
abbrev GenTree := List (String × String)

/-- `shutil.copytree(output_dir, path, dirs_exist_ok=True)`: every file of
the generated listing is written below `dst`, overwriting what is there. -/
def copytree (tree : GenTree) (dst : String) (fs : FS) : FS :=
  tree.foldl (fun acc e => fsWrite acc (dst ++ "/" ++ e.1) e.2) fs

/-! ## The memoized clone (`run_clone_repo` with `functools.cache`)

`@cache` keys the memo table on the exact argument pair; a fresh scratch
directory path stands in for `tempfile.TemporaryDirectory(delete=False)`,
and the `git.Repo.clone_from` call is counted rather than performed. -/

/-- The ssh URL built inside `run_clone_repo`. -/
def repoUrl (repo : String) : String :=
  "git@github.com:" ++ repo ++ ".git"

/-- The process-lifetime state of the memoized clone: the `functools.cache`
table of `run_clone_repo` plus a counter of actual clone operations. -/
structure CloneState where
  memo : List ((String × String) × String)
  cloneCount : Nat
deriving DecidableEq

/-- Cache lookup on the exact `(repo, branch)` pair. -/
def memoLookup (st : CloneState) (key : String × String) : Option String :=
  (st.memo.find? (fun e => e.1 == key)).map Prod.snd

/-- The fresh temporary directory the next actual clone checks out into. -/
def freshClonePath (st : CloneState) : String :=
  "/tmp/clone" ++ toString st.cloneCount

/-- `run_clone_repo(repo, branch)`: on a cache hit return the memoized
checkout path without cloning; otherwise clone into a fresh scratch
directory, record it, and return it. -/
def run_clone_repo (repo branch : String) (st : CloneState) : String × CloneState :=
  match memoLookup st (repo, branch) with
  | some p => (p, st)
  | none =>
    let p := freshClonePath st
    (p, { memo := st.memo ++ [((repo, branch), p)], cloneCount := st.cloneCount + 1 })

/-- A run's sequence of clone requests, threaded through the cache state. -/
def runClones : List (String × String) → CloneState → List String × CloneState
  | [], st => ([], st)
  | r :: rs, st =>
    let q := run_clone_repo r.1 r.2 st
    let w := runClones rs q.2
    (q.1 :: w.1, w.2)

/-- The state of `functools.cache` when the process starts. -/
def initialCloneState : CloneState := ⟨[], 0⟩

/-! ## The run orchestrator (`main`)

The per-source loop of `main` is driven by a generation oracle
`gen : Nat → Except String GenTree`: for the source at position `i`,
`gen i` is the combined observable effect of the guarded block — merge,
clone, argument synthesis, `create_module`, the external generator and
`run_ruff` — namely either the listing of files found under that source's
`final_path` scratch directory, or the message of whatever exception the
block raised.  The `except` clause logs the failure and continues with the
next source. -/

/-- `logger.error(f'Error processing ...')` in the per-source `except`. -/
def procErrMsg (inp msg : String) : String :=
  "Error processing " ++ inp ++ ": " ++ msg

/-- Accumulated results of the per-source loop: the `outputs` pairs, the
logged error messages, and the `failed` flag. -/
structure ProcResult where
  outputs : List (SourceConfig × GenTree)
  errors : List String
  failed : Bool
deriving DecidableEq

/-- The per-source loop of `main`, from source position `i` on. -/
def processAux (gen : Nat → Except String GenTree) : Nat → List SourceConfig → ProcResult
  | _, [] => ⟨[], [], false⟩
  | i, s :: rest =>
    let r := processAux gen (i + 1) rest
    match gen i with
    | Except.ok tree => ⟨(s, tree) :: r.outputs, r.errors, r.failed⟩
    | Except.error msg => ⟨r.outputs, procErrMsg s.input msg :: r.errors, true⟩

/-- The whole per-source loop. -/
def processSources (sources : List SourceConfig) (gen : Nat → Except String GenTree) : ProcResult :=
  processAux gen 0 sources

/-- The `module_paths` set of publish mode: the distinct resolved output
locations of the sources that generated successfully (Python materializes a
`set`, whose iteration order is unspecified; the deletions it orders are
commutative). -/
def modulePaths (d : BaseModelConfig) (outs : List (SourceConfig × GenTree)) : List String :=
  (outs.map (fun e => outPath d e.1)).dedup

/-- Publish mode, first loop: delete every touched output location. -/
def deletePhase (paths : List String) (fs : FS) : FS :=
  paths.foldl (fun acc p => rmtree p acc) fs

/-- Publish mode, second loop: copy every generated listing into its
resolved output location, in source order. -/
def copyPhase (d : BaseModelConfig) (outs : List (SourceConfig × GenTree)) (fs : FS) : FS :=
  outs.foldl (fun acc e => copytree e.2 (outPath d e.1) acc) fs

/-- Publish mode of `main`: all deletions, then all copies. -/
def publishPhase (d : BaseModelConfig) (outs : List (SourceConfig × GenTree)) (fs : FS) : FS :=
  copyPhase d outs (deletePhase (modulePaths d outs) fs)

/-- `os.path.basename`: the part of the path after its last `'/'`. -/
def basename (p : String) : String :=
  String.mk ((p.data.reverse.takeWhile (fun c => c != '/')).reverse)

/-- `str(FileNotFoundError)` when `run_diff` opens a missing counterpart. -/
def fileMissingMsg (p : String) : String :=
  "[Errno 2] No such file or directory: " ++ p

/-- `logger.error(f'Extra files found: ...')` in verify mode. -/
def extraFilesMsg (ps : List String) : String :=
  "Extra files found: " ++ String.intercalate ", " ps

/-- The mutable state of verify mode: the `existing_files` set of files not
yet matched, the logged error messages, and the `failed` flag. -/
structure VerifyState where
  existing : List String
  errors : List String
  failed : Bool
deriving DecidableEq

/-- Verify mode collects, before any comparison, every file currently below
any touched output location (a `set`: duplicates collapse). -/
def initialExisting (d : BaseModelConfig) (outs : List (SourceConfig × GenTree)) (fs : FS) : List String :=
  (outs.foldl (fun acc e => acc ++ list_files (outPath d e.1) fs) []).dedup

/-- The comparison half of one verify step, once the on-disk counterpart was
read: a clean diff discards the matched path from `existing_files` (`remove`
inside a bare `except: pass`, so an absent member is ignored); a raised diff
is logged and marks the run failed. -/
def verifyFileDiff (target : String) (st : VerifyState) (content disk : String) : VerifyState :=
  match run_diff content disk with
  | Except.ok _ => ⟨st.existing.erase target, st.errors, st.failed⟩
  | Except.error msg => ⟨st.existing, st.errors ++ [msg], true⟩

/-- One generated file in verify mode: compare it against the file named by
joining the resolved output location with the generated file's *basename*;
a missing counterpart raises `FileNotFoundError`, which the per-file
`except` logs before marking the run failed. -/
def verifyFile (mpath : String) (fs : FS) (st : VerifyState) (rel content : String) : VerifyState :=
  match lookupFS fs (mpath ++ "/" ++ basename rel) with
  | none => ⟨st.existing, st.errors ++ [fileMissingMsg (mpath ++ "/" ++ basename rel)], true⟩
  | some disk => verifyFileDiff (mpath ++ "/" ++ basename rel) st content disk

/-- Verify mode over one source: every file of its generated listing. -/
def verifySource (d : BaseModelConfig) (fs : FS) (st : VerifyState) (e : SourceConfig × GenTree) : VerifyState :=
  e.2.foldl (fun acc f => verifyFile (outPath d e.1) fs acc f.1 f.2) st

/-- The final check of verify mode: whatever remains in `existing_files`
after all sources were matched is reported as extra files and fails the
run. -/
def reportExtras (st : VerifyState) : VerifyState :=
  if st.existing.isEmpty then st
  else ⟨st.existing, st.errors ++ [extraFilesMsg st.existing], true⟩

/-- Verify mode of `main`: collect the existing files, match every generated
file, then report whatever is left as extra files. -/
def verifyPhase (d : BaseModelConfig) (outs : List (SourceConfig × GenTree)) (fs : FS) : VerifyState :=
  reportExtras (outs.foldl (verifySource d fs) ⟨initialExisting d outs fs, [], false⟩)

/-- The outcome of a whole run: the file system it leaves behind, the error
messages it logged, and its exit code (`quit(1)` when anything failed). -/
structure RunResult where
  fs : FS
  errors : List String
  exitCode : Nat
deriving DecidableEq

/-- `main`: the per-source loop, then — depending on the `--generate` flag —
either publish (delete all touched locations, then copy every generated
listing) or verify (diff every generated file and report extras), and the
final exit status. -/
def main (cfg : LithicConfig) (gen : Nat → Except String GenTree) (generateFlag : Bool) (fs : FS) : RunResult :=
  let pr := processSources cfg.sources gen
  if generateFlag then
    { fs := publishPhase cfg.default pr.outputs fs
    , errors := pr.errors
    , exitCode := if pr.failed then 1 else 0 }
  else
    let vs := verifyPhase cfg.default pr.outputs fs
    { fs := fs
    , errors := pr.errors ++ vs.errors
    , exitCode := if pr.failed || vs.failed then 1 else 0 }

/-! ## Path and file-system lemmas -/

theorem str_append_cancel {a b c : String} (h : a ++ b = a ++ c) : b = c := by
  apply String.ext
  have h2 : (a ++ b).data = (a ++ c).data := by rw [h]
  rw [String.data_append, String.data_append] at h2
  exact List.append_cancel_left h2

theorem join_eq_join_iff (m r1 r2 : String) :
    (m ++ "/" ++ r1 = m ++ "/" ++ r2) ↔ r1 = r2 :=
  ⟨fun h => str_append_cancel h, fun h => by rw [h]⟩

theorem underDir_join (m r : String) : underDir m (m ++ "/" ++ r) = true := by
  unfold underDir
  rw [List.isPrefixOf_iff_prefix, String.data_append (m ++ "/") r]
  exact List.prefix_append _ _

theorem find?_filter_of_imp {α : Type} (p f : α → Bool) (l : List α)
    (h : ∀ x, p x = true → f x = true) :
    List.find? p (l.filter f) = List.find? p l := by
  induction l with
  | nil => rfl
  | cons a t ih =>
    rw [List.filter_cons]
    by_cases hp : p a = true
    · rw [if_pos (h a hp), List.find?_cons_of_pos _ hp, List.find?_cons_of_pos _ hp]
    · by_cases hf : f a = true
      · rw [if_pos hf, List.find?_cons_of_neg _ hp, List.find?_cons_of_neg _ hp, ih]
      · rw [if_neg hf, List.find?_cons_of_neg _ hp, ih]

theorem lookupFS_fsWrite (fs : FS) (p c q : String) :
    lookupFS (fsWrite fs p c) q = if q = p then some c else lookupFS fs q := by
  unfold lookupFS fsWrite
  by_cases h : q = p
  · subst h
    rw [List.find?_cons_of_pos _ (by simp)]
    simp
  · rw [List.find?_cons_of_neg _ (by simp [Ne.symm h]), if_neg h,
      find?_filter_of_imp _ _ _ (fun x hx => by
        have hxq : x.1 = q := by simpa using hx
        simp [hxq, h])]

theorem lookupFS_rmtree (d : String) (fs : FS) (q : String) :
    lookupFS (rmtree d fs) q = if underDir d q = true then none else lookupFS fs q := by
  unfold lookupFS rmtree
  by_cases h : underDir d q = true
  · rw [if_pos h]
    rw [List.find?_eq_none.mpr ?hnone]
    · rfl
    case hnone =>
      intro x hx hbeq
      rcases List.mem_filter.mp hx with ⟨_, hcond⟩
      have hxq : x.1 = q := by simpa using hbeq
      rw [hxq, h] at hcond
      simp at hcond
  · rw [if_neg h, find?_filter_of_imp _ _ _ (fun x hx => by
      have hxq : x.1 = q := by simpa using hx
      rw [hxq]
      simp [Bool.not_eq_true] at h ⊢
      exact h)]

theorem lookupFS_deletePhase (ps : List String) (fs : FS) (q : String) :
    lookupFS (deletePhase ps fs) q =
      if ps.any (fun m => underDir m q) = true then none else lookupFS fs q := by
  induction ps generalizing fs with
  | nil => simp [deletePhase]
  | cons m ps ih =>
    show lookupFS (deletePhase ps (rmtree m fs)) q = _
    rw [ih, lookupFS_rmtree, List.any_cons]
    by_cases h1 : ps.any (fun m => underDir m q) = true
    · simp [h1]
    · by_cases h2 : underDir m q = true <;> simp [h1, h2]

/-- The last write the copy of one generated listing performs at path `q`
(later copies of the same relative path overwrite earlier ones). -/
def treeLookupLast (tree : GenTree) (dst q : String) : Option String :=
  (tree.reverse.find? (fun e => dst ++ "/" ++ e.1 == q)).map Prod.snd

theorem lookupFS_copytree (tree : GenTree) (dst : String) (fs : FS) (q : String) :
    lookupFS (copytree tree dst fs) q =
      (treeLookupLast tree dst q).or (lookupFS fs q) := by
  induction tree generalizing fs with
  | nil => simp [copytree, treeLookupLast]
  | cons e t ih =>
    show lookupFS (copytree t dst (fsWrite fs (dst ++ "/" ++ e.1) e.2)) q = _
    rw [ih, lookupFS_fsWrite]
    unfold treeLookupLast
    rw [List.reverse_cons, List.find?_append]
    cases hfind : List.find? (fun e => dst ++ "/" ++ e.1 == q) t.reverse with
    | some v => simp [treeLookupLast, hfind]
    | none =>
      simp only [treeLookupLast, hfind, Option.map_none, Option.none_or]
      rw [List.find?_singleton]
      by_cases hq : q = dst ++ "/" ++ e.1
      · rw [if_pos hq, if_pos (by simp [hq])]
        simp
      · rw [if_neg hq, if_neg (by
          simp only [beq_iff_eq]
          exact fun h => hq (Eq.symm h))]

/-- The last write the whole copy loop performs at path `q`: the latest
source whose listing writes `q`, with its own latest write there. -/
def outsLookupLast (d : BaseModelConfig) (outs : List (SourceConfig × GenTree)) (q : String) : Option String :=
  outs.reverse.findSome? (fun e => treeLookupLast e.2 (outPath d e.1) q)

theorem lookupFS_copyPhase (d : BaseModelConfig) (outs : List (SourceConfig × GenTree))
    (fs : FS) (q : String) :
    lookupFS (copyPhase d outs fs) q =
      (outsLookupLast d outs q).or (lookupFS fs q) := by
  induction outs generalizing fs with
  | nil => simp [copyPhase, outsLookupLast]
  | cons e t ih =>
    show lookupFS (copyPhase d t (copytree e.2 (outPath d e.1) fs)) q = _
    rw [ih, lookupFS_copytree]
    unfold outsLookupLast
    rw [List.reverse_cons, List.findSome?_append]
    simp only [List.findSome?_cons, List.findSome?_nil]
    cases hfind : List.findSome? (fun e => treeLookupLast e.2 (outPath d e.1) q) t.reverse with
    | some v => simp [outsLookupLast, hfind]
    | none =>
      simp only [outsLookupLast, hfind, Option.none_or]
      cases htree : treeLookupLast e.2 (outPath d e.1) q <;> simp [htree, Option.or_assoc]

/-! ## Lemmas about the diff model -/

theorem commonPrefixLen_cons_eq (x : String) (t u : List String) :
    commonPrefixLen (x :: t) (x :: u) = commonPrefixLen t u + 1 := by
  simp [commonPrefixLen]

theorem commonPrefixLen_cons_ne {x y : String} (h : x ≠ y) (t u : List String) :
    commonPrefixLen (x :: t) (y :: u) = 0 := by
  simp [commonPrefixLen, h]

theorem commonPrefixLen_self (a : List String) : commonPrefixLen a a = a.length := by
  induction a with
  | nil => rfl
  | cons x t ih => simp [commonPrefixLen, ih]

theorem commonPrefixLen_le_left (a b : List String) : commonPrefixLen a b ≤ a.length := by
  induction a generalizing b with
  | nil => simp [commonPrefixLen]
  | cons x t ih =>
    cases b with
    | nil => simp [commonPrefixLen]
    | cons y u =>
      by_cases h : x = y
      · simp only [commonPrefixLen, if_pos h, List.length_cons]
        exact Nat.succ_le_succ (ih u)
      · simp [commonPrefixLen, if_neg h]

theorem commonPrefixLen_le_right (a b : List String) : commonPrefixLen a b ≤ b.length := by
  induction a generalizing b with
  | nil => simp [commonPrefixLen]
  | cons x t ih =>
    cases b with
    | nil => simp [commonPrefixLen]
    | cons y u =>
      by_cases h : x = y
      · simp only [commonPrefixLen, if_pos h, List.length_cons]
        exact Nat.succ_le_succ (ih u)
      · simp [commonPrefixLen, if_neg h]

theorem eq_of_commonPrefixLen_lengths {a b : List String}
    (ha : a.length ≤ commonPrefixLen a b) (hb : b.length ≤ commonPrefixLen a b) : a = b := by
  induction a generalizing b with
  | nil =>
    cases b with
    | nil => rfl
    | cons y u => simp [commonPrefixLen] at hb
  | cons x t ih =>
    cases b with
    | nil => simp [commonPrefixLen] at ha
    | cons y u =>
      by_cases h : x = y
      · subst h
        rw [commonPrefixLen_cons_eq] at ha hb
        simp only [List.length_cons, Nat.succ_le_succ_iff] at ha hb
        rw [ih ha hb]
      · rw [commonPrefixLen_cons_ne h] at ha
        simp at ha

theorem take_commonPrefixLen_eq (a b : List String) :
    a.take (commonPrefixLen a b) = b.take (commonPrefixLen a b) := by
  induction a generalizing b with
  | nil => simp [commonPrefixLen]
  | cons x t ih =>
    cases b with
    | nil => simp [commonPrefixLen]
    | cons y u =>
      by_cases h : x = y
      · subst h
        rw [commonPrefixLen_cons_eq, List.take_succ_cons, List.take_succ_cons, ih u]
      · rw [commonPrefixLen_cons_ne h]
        simp

theorem diffCore_eq_nil_iff (a b : List String) : diffCore a b = [] ↔ a = b := by
  constructor
  · intro h
    simp only [diffCore] at h
    rcases List.append_eq_nil.mp h with ⟨h1, h2⟩
    rw [List.map_eq_nil_iff] at h1 h2
    have ha := (List.take_eq_nil_iff).mp h1
    have hb := (List.take_eq_nil_iff).mp h2
    set p := commonPrefixLen a b with hp
    set a1 := a.drop p with ha1
    set b1 := b.drop p with hb1
    set s := commonPrefixLen a1.reverse b1.reverse with hs
    have hsl : s ≤ a1.length := by
      have := commonPrefixLen_le_left a1.reverse b1.reverse
      rwa [List.length_reverse] at this
    have hsr : s ≤ b1.length := by
      have := commonPrefixLen_le_right a1.reverse b1.reverse
      rwa [List.length_reverse] at this
    have hal : a1.length ≤ s := by
      rcases ha with h0 | h0
      · omega
      · rw [h0]; simp
    have hbl : b1.length ≤ s := by
      rcases hb with h0 | h0
      · omega
      · rw [h0]; simp
    have heq : a1.reverse = b1.reverse := by
      apply eq_of_commonPrefixLen_lengths
      · rw [List.length_reverse]; omega
      · rw [List.length_reverse]; omega
    have heq2 : a1 = b1 := by
      have := congrArg List.reverse heq
      rwa [List.reverse_reverse, List.reverse_reverse] at this
    have hfront := take_commonPrefixLen_eq a b
    have hdrop : List.drop p a = List.drop p b := by rw [← ha1, ← hb1, heq2]
    have htake : List.take p a = List.take p b := by rw [hp]; exact hfront
    calc a = a.take p ++ a.drop p := (List.take_append_drop p a).symm
    _ = b.take p ++ b.drop p := by rw [htake, hdrop]
    _ = b := List.take_append_drop p b
  · intro h
    subst h
    simp only [diffCore, commonPrefixLen_self, List.drop_length]
    simp

theorem unified_diff_eq_nil_iff (a b : List String) : unified_diff a b = [] ↔ a = b := by
  unfold unified_diff
  constructor
  · intro h
    cases hc : diffCore a b with
    | nil => exact (diffCore_eq_nil_iff a b).mp hc
    | cons x t => rw [hc] at h; simp at h
  · intro h
    rw [(diffCore_eq_nil_iff a b).mpr h]

theorem run_diff_ok_iff (c1 c2 : String) :
    run_diff c1 c2 = Except.ok () ↔ readLines c1 = readLines c2 := by
  unfold run_diff
  constructor
  · intro h
    cases hu : unified_diff (readLines c1) (readLines c2) with
    | nil => exact (unified_diff_eq_nil_iff _ _).mp hu
    | cons x t => rw [hu] at h; simp at h
  · intro h
    rw [(unified_diff_eq_nil_iff _ _).mpr h]

theorem run_diff_error_iff (c1 c2 : String) :
    (∃ msg, run_diff c1 c2 = Except.error msg) ↔ readLines c1 ≠ readLines c2 := by
  constructor
  · rintro ⟨msg, hmsg⟩ heq
    rw [(run_diff_ok_iff c1 c2).mpr heq] at hmsg
    exact Except.noConfusion hmsg
  · intro hne
    unfold run_diff
    cases hu : unified_diff (readLines c1) (readLines c2) with
    | nil => exact absurd ((unified_diff_eq_nil_iff _ _).mp hu) hne
    | cons x t => exact ⟨_, rfl⟩

theorem run_diff_self (c : String) : run_diff c c = Except.ok () :=
  (run_diff_ok_iff c c).mpr rfl

/-! ## Lemmas about newline handling -/

theorem univ_rn (rest : List Char) :
    univNewlines ('\r' :: '\n' :: rest) = '\n' :: univNewlines rest := by
  simp [univNewlines]

theorem univ_r_cons {rest : List Char} (h : rest.head? ≠ some '\n') :
    univNewlines ('\r' :: rest) = '\n' :: univNewlines rest :=
  univNewlines.eq_3 rest (fun _ hr => h (by rw [hr]; rfl))

theorem univ_cons_ne (c : Char) (rest : List Char) (h : c ≠ '\r') :
    univNewlines (c :: rest) = c :: univNewlines rest :=
  univNewlines.eq_4 c rest (fun _ hc _ => h hc) (fun hc => h hc)

theorem splitlinesAux_break {c : Char} (h : isLineBreakChar c = true) (rest acc : List Char) :
    splitlinesAux (c :: rest) acc = String.mk acc.reverse :: splitlinesAux rest [] := by
  simp [splitlinesAux, h]

theorem splitlinesAux_nonbreak {c : Char} (h : isLineBreakChar c = false) (rest acc : List Char) :
    splitlinesAux (c :: rest) acc = splitlinesAux rest (c :: acc) := by
  simp [splitlinesAux, h]

/-- Universal-newline translation is the identity on carriage-return-free
text. -/
theorem univ_noCR (cs : List Char) (h : cs.all (fun ch => ch != '\r') = true) :
    univNewlines cs = cs := by
  induction cs with
  | nil => rfl
  | cons c rest ih =>
    rw [List.all_cons, Bool.and_eq_true] at h
    rw [univ_cons_ne c rest (by simpa using h.1), ih h.2]

/-- A text rendered with CRLF line endings: every `'\n'` becomes `"\r\n"`. -/
def expandCRLF : List Char → List Char
  | [] => []
  | '\n' :: rest => '\r' :: '\n' :: expandCRLF rest
  | c :: rest => c :: expandCRLF rest

theorem expandCRLF_cons_ne (c : Char) (rest : List Char) (h : c ≠ '\n') :
    expandCRLF (c :: rest) = c :: expandCRLF rest :=
  expandCRLF.eq_3 c rest (fun hc => h hc)

/-- Reading the CRLF rendering of carriage-return-free text yields the text
itself. -/
theorem univ_expandCRLF (cs : List Char) (h : cs.all (fun ch => ch != '\r') = true) :
    univNewlines (expandCRLF cs) = cs := by
  induction cs with
  | nil => rfl
  | cons c rest ih =>
    rw [List.all_cons, Bool.and_eq_true] at h
    by_cases hc : c = '\n'
    · subst hc
      show univNewlines (expandCRLF ('\n' :: rest)) = _
      rw [show expandCRLF ('\n' :: rest) = '\r' :: '\n' :: expandCRLF rest from by
        simp [expandCRLF]]
      rw [univ_rn, ih h.2]
    · rw [expandCRLF_cons_ne c rest hc,
        univ_cons_ne c _ (by simpa using h.1), ih h.2]

/-- Appending a final terminating newline to text whose last character is not
a line break does not change its line list. -/
theorem splitlines_univ_append_newline {c : Char} (hc : isLineBreakChar c = false)
    (cs : List Char) :
    ∀ acc, splitlinesAux (univNewlines (cs ++ [c, '\n'])) acc
      = splitlinesAux (univNewlines (cs ++ [c])) acc := by
  have hcr : c ≠ '\r' := fun hh => by rw [hh] at hc; simp [isLineBreakChar] at hc
  have hcn : c ≠ '\n' := fun hh => by rw [hh] at hc; simp [isLineBreakChar] at hc
  induction cs using univNewlines.induct with
  | case1 =>
    intro acc
    simp only [List.nil_append]
    rw [univ_cons_ne c _ hcr, univ_cons_ne '\n' _ (by decide), univ_cons_ne c _ hcr]
    show splitlinesAux (c :: '\n' :: univNewlines []) acc
      = splitlinesAux (c :: univNewlines []) acc
    rw [splitlinesAux_nonbreak hc, splitlinesAux_nonbreak hc]
    show splitlinesAux ('\n' :: []) (c :: acc) = splitlinesAux [] (c :: acc)
    rw [splitlinesAux_break (by decide)]
    rfl
  | case2 rest ih =>
    intro acc
    show splitlinesAux (univNewlines ('\r' :: '\n' :: (rest ++ [c, '\n']))) acc
      = splitlinesAux (univNewlines ('\r' :: '\n' :: (rest ++ [c]))) acc
    rw [univ_rn, univ_rn, splitlinesAux_break (by decide), splitlinesAux_break (by decide),
      ih []]
  | case3 rest hne ih =>
    intro acc
    show splitlinesAux (univNewlines ('\r' :: (rest ++ [c, '\n']))) acc
      = splitlinesAux (univNewlines ('\r' :: (rest ++ [c]))) acc
    have hhead : ∀ (ds : List Char), (rest ++ c :: ds).head? ≠ some '\n' := by
      intro ds
      cases rest with
      | nil =>
        simp only [List.nil_append, List.head?_cons]
        intro hh
        exact hcn (by simpa using hh)
      | cons r0 rt =>
        simp only [List.cons_append, List.head?_cons]
        intro hh
        exact hne rt (by
          have : r0 = '\n' := by simpa using hh
          rw [this])
    rw [univ_r_cons (hhead ['\n']), univ_r_cons (hhead [])]
    rw [splitlinesAux_break (by decide), splitlinesAux_break (by decide), ih []]
  | case4 c0 rest h1 h2 ih =>
    intro acc
    have hc0 : c0 ≠ '\r' := fun hh => h2 hh
    show splitlinesAux (univNewlines (c0 :: (rest ++ [c, '\n']))) acc
      = splitlinesAux (univNewlines (c0 :: (rest ++ [c]))) acc
    rw [univ_cons_ne c0 _ hc0, univ_cons_ne c0 _ hc0]
    by_cases hb : isLineBreakChar c0 = true
    · rw [splitlinesAux_break hb, splitlinesAux_break hb, ih []]
    · rw [splitlinesAux_nonbreak (Bool.not_eq_true _ ▸ hb),
        splitlinesAux_nonbreak (Bool.not_eq_true _ ▸ hb), ih (c0 :: acc)]

/-- C10: the verify-mode file comparison reports drift exactly when the two
files' line lists (as produced by splitting on line boundaries) differ; two
files differing only by a trailing final newline, or only by CRLF versus LF
line endings, are treated as identical and report no drift. -/
theorem C10_diff_line_semantics :
    (∀ c1 c2 : String,
        (∃ msg, run_diff c1 c2 = Except.error msg) ↔ readLines c1 ≠ readLines c2)
      ∧ (∀ (cs : List Char) (c : Char), isLineBreakChar c = false →
          run_diff (String.mk (cs ++ [c, '\n'])) (String.mk (cs ++ [c])) = Except.ok ())
      ∧ (∀ cs : List Char, cs.all (fun ch => ch != '\r') = true →
          run_diff (String.mk (expandCRLF cs)) (String.mk cs) = Except.ok ()) := by
  refine ⟨run_diff_error_iff, ?_, ?_⟩
  · intro cs c hc
    apply (run_diff_ok_iff _ _).mpr
    show splitlinesAux (univNewlines (cs ++ [c, '\n'])) []
      = splitlinesAux (univNewlines (cs ++ [c])) []
    exact splitlines_univ_append_newline hc cs []
  · intro cs h
    apply (run_diff_ok_iff _ _).mpr
    show splitlinesAux (univNewlines (expandCRLF cs)) []
      = splitlinesAux (univNewlines cs) []
    rw [univ_expandCRLF cs h, univ_noCR cs h]

/-- Witness for C10 at concrete inputs: `"x"` against `"y"` drifts; a
trailing final newline and a CRLF rendering do not. -/
theorem C10_diff_line_semantics_witness :
    (∃ msg, run_diff "x" "y" = Except.error msg)
      ∧ run_diff (String.mk (['a'] ++ ['b', '\n'])) (String.mk (['a'] ++ ['b'])) = Except.ok ()
      ∧ run_diff (String.mk (expandCRLF ['a', '\n', 'b'])) (String.mk ['a', '\n', 'b'])
          = Except.ok () :=
  ⟨(C10_diff_line_semantics.1 "x" "y").mpr (by decide),
    C10_diff_line_semantics.2.1 ['a'] 'b' (by decide),
    C10_diff_line_semantics.2.2 ['a', '\n', 'b'] (by decide)⟩

/-! ## The merge claim -/

/-- The default block of the spec's merge example: branch `"main"`. -/
def mergeDefault : BaseModelConfig :=
  ⟨"org/repo", "main", "", "models"⟩

/-- A source whose raw definition explicitly contains `branch: null`: the
field is present in the raw source definition and its value is falsy. -/
def srcNullBranch : SourceConfig :=
  { input := "api.yaml", branch := some none }

/-- A source explicitly setting `branch` to the empty string. -/
def srcEmptyBranch : SourceConfig :=
  { input := "api.yaml", branch := some (some "") }

/-- C3 counterexample: the claim says an explicitly-present field overrides
the default even when its value is falsy; but for a field explicitly present
as `null` (falsy), `merge_config` keeps the default `"main"` instead of the
source's value, because the loop skips values that are `None`. -/
theorem C3_counterexample_null_override :
    srcNullBranch.branch = some none
      ∧ (merge_config mergeDefault srcNullBranch).branch = some (some "main") :=
  ⟨rfl, rfl⟩

/-- C3, amended: a field explicitly present with a non-`null` value — even
the empty string — overrides the default; a field absent, or explicitly
present as `null`, resolves to the default's value.  In particular a default
branch with a source explicitly setting branch to `""` resolves to `""`. -/
theorem C3_merge_override_by_presence (d : BaseModelConfig) (s : SourceConfig) :
    ((∀ v, s.repo = some (some v) → (merge_config d s).repo = some (some v))
      ∧ (s.repo = none ∨ s.repo = some none →
          (merge_config d s).repo = some (some d.repo)))
    ∧ ((∀ v, s.branch = some (some v) → (merge_config d s).branch = some (some v))
      ∧ (s.branch = none ∨ s.branch = some none →
          (merge_config d s).branch = some (some d.branch)))
    ∧ ((∀ v, s.args = some (some v) → (merge_config d s).args = some (some v))
      ∧ (s.args = none ∨ s.args = some none →
          (merge_config d s).args = some (some d.args)))
    ∧ ((∀ v, s.output_module_path = some (some v) →
          (merge_config d s).output_module_path = some (some v))
      ∧ (s.output_module_path = none ∨ s.output_module_path = some none →
          (merge_config d s).output_module_path = some (some d.output_module_path)))
    ∧ (merge_config d s).input = s.input
    ∧ (s.branch = some (some "") → (merge_config d s).branch = some (some "")) := by
  refine ⟨⟨?_, ?_⟩, ⟨?_, ?_⟩, ⟨?_, ?_⟩, ⟨?_, ?_⟩, rfl, ?_⟩
  · exact fun v hv => by simp [merge_config, mergeField, hv]
  · rintro (h | h) <;> simp [merge_config, mergeField, h]
  · exact fun v hv => by simp [merge_config, mergeField, hv]
  · rintro (h | h) <;> simp [merge_config, mergeField, h]
  · exact fun v hv => by simp [merge_config, mergeField, hv]
  · rintro (h | h) <;> simp [merge_config, mergeField, h]
  · exact fun v hv => by simp [merge_config, mergeField, hv]
  · rintro (h | h) <;> simp [merge_config, mergeField, h]
  · exact fun hv => by simp [merge_config, mergeField, hv]

/-- Witness for C3's amended theorem: an explicit empty-string branch
overrides the default `"main"`, and the unset repo falls back. -/
theorem C3_merge_override_by_presence_witness :
    (merge_config mergeDefault srcEmptyBranch).branch = some (some "")
      ∧ (merge_config mergeDefault srcEmptyBranch).repo = some (some "org/repo") :=
  ⟨(C3_merge_override_by_presence mergeDefault srcEmptyBranch).2.1.1 "" rfl,
    (C3_merge_override_by_presence mergeDefault srcEmptyBranch).1.2 (Or.inl rfl)⟩

/-! ## Lemmas about the memoized clone -/

/-- The keys currently present in the clone cache. -/
def cloneKeys (st : CloneState) : List (String × String) :=
  st.memo.map Prod.fst

theorem memoLookup_eq_none_iff (st : CloneState) (k : String × String) :
    memoLookup st k = none ↔ k ∉ cloneKeys st := by
  unfold memoLookup cloneKeys
  constructor
  · intro h hk
    rcases List.mem_map.mp hk with ⟨e, he, hke⟩
    cases hf : List.find? (fun e => e.1 == k) st.memo with
    | some v => rw [hf] at h; simp at h
    | none =>
      rw [List.find?_eq_none] at hf
      exact hf e he (by simp [hke])
  · intro h
    cases hf : List.find? (fun e => e.1 == k) st.memo with
    | none => rfl
    | some e =>
      exfalso
      have hmem := List.mem_of_find?_eq_some hf
      have hkey : e.1 = k := by simpa using List.find?_some hf
      exact h (hkey ▸ List.mem_map_of_mem Prod.fst hmem)

theorem memoLookup_some_mem {st : CloneState} {k : String × String} {v : String}
    (h : memoLookup st k = some v) : k ∈ cloneKeys st := by
  unfold memoLookup at h
  cases hf : List.find? (fun e => e.1 == k) st.memo with
  | none => rw [hf] at h; simp at h
  | some e =>
    have hmem := List.mem_of_find?_eq_some hf
    have hkey : e.1 = k := by simpa using List.find?_some hf
    exact hkey ▸ List.mem_map_of_mem Prod.fst hmem

theorem run_clone_memoLookup_self (r b : String) (st : CloneState) :
    memoLookup (run_clone_repo r b st).2 (r, b) = some (run_clone_repo r b st).1 := by
  unfold run_clone_repo
  cases h : memoLookup st (r, b) with
  | some p => simpa using h
  | none =>
    have hf : List.find? (fun e => e.1 == (r, b)) st.memo = none := by
      unfold memoLookup at h
      cases hf : List.find? (fun e => e.1 == (r, b)) st.memo with
      | none => rfl
      | some v => rw [hf] at h; simp at h
    show memoLookup ⟨st.memo ++ [((r, b), freshClonePath st)], st.cloneCount + 1⟩ (r, b)
      = some (freshClonePath st)
    unfold memoLookup
    rw [List.find?_append, hf, Option.none_or, List.find?_singleton]
    simp

theorem run_clone_memoLookup_mono {st : CloneState} {k : String × String} {v : String}
    (h : memoLookup st k = some v) (r b : String) :
    memoLookup (run_clone_repo r b st).2 k = some v := by
  unfold run_clone_repo
  cases hm : memoLookup st (r, b) with
  | some p => simpa using h
  | none =>
    show memoLookup ⟨st.memo ++ [((r, b), freshClonePath st)], st.cloneCount + 1⟩ k = some v
    unfold memoLookup at h ⊢
    rw [List.find?_append]
    cases hf : List.find? (fun e => e.1 == k) st.memo with
    | none => rw [hf] at h; simp at h
    | some e =>
      rw [hf] at h
      simpa using h

theorem runClones_memoLookup_mono {k : String × String} {v : String}
    (rs : List (String × String)) {st : CloneState}
    (h : memoLookup st k = some v) :
    memoLookup (runClones rs st).2 k = some v := by
  induction rs generalizing st with
  | nil => simpa using h
  | cons r rs ih =>
    show memoLookup (runClones rs (run_clone_repo r.1 r.2 st).2).2 k = some v
    exact ih (run_clone_memoLookup_mono h r.1 r.2)

theorem runClones_results (rs : List (String × String)) (st : CloneState) :
    (runClones rs st).1
      = rs.map (fun r => (memoLookup (runClones rs st).2 r).getD "") := by
  induction rs generalizing st with
  | nil => rfl
  | cons r rs ih =>
    show (run_clone_repo r.1 r.2 st).1
        :: (runClones rs (run_clone_repo r.1 r.2 st).2).1 = _
    rw [List.map_cons]
    congr 1
    · have h1 := run_clone_memoLookup_self r.1 r.2 st
      have h2 := runClones_memoLookup_mono rs h1
      show (run_clone_repo r.1 r.2 st).1
        = (memoLookup (runClones rs (run_clone_repo r.1 r.2 st).2).2 r).getD ""
      rw [show memoLookup (runClones rs (run_clone_repo r.1 r.2 st).2).2 r
          = some (run_clone_repo r.1 r.2 st).1 from h2]
      rfl
    · exact ih _

theorem run_clone_hit {r b : String} {st : CloneState} {p : String}
    (hm : memoLookup st (r, b) = some p) :
    run_clone_repo r b st = (p, st) := by
  unfold run_clone_repo
  rw [hm]

theorem run_clone_keys_miss {r b : String} {st : CloneState}
    (hm : memoLookup st (r, b) = none) :
    (run_clone_repo r b st).2.memo = st.memo ++ [((r, b), freshClonePath st)]
      ∧ (run_clone_repo r b st).2.cloneCount = st.cloneCount + 1 := by
  unfold run_clone_repo
  rw [hm]
  exact ⟨rfl, rfl⟩

theorem runClones_keys_mem (rs : List (String × String)) (st : CloneState)
    (k : String × String) :
    k ∈ cloneKeys (runClones rs st).2 ↔ k ∈ cloneKeys st ∨ k ∈ rs := by
  induction rs generalizing st with
  | nil => simp [runClones]
  | cons r rs ih =>
    show k ∈ cloneKeys (runClones rs (run_clone_repo r.1 r.2 st).2).2 ↔ _
    rw [ih]
    cases hm : memoLookup st (r.1, r.2) with
    | some p =>
      have hr : (r.1, r.2) ∈ cloneKeys st := memoLookup_some_mem hm
      rw [Prod.mk.eta] at hr
      rw [run_clone_hit hm]
      simp only [List.mem_cons]
      constructor
      · rintro (h | h)
        · exact Or.inl h
        · exact Or.inr (Or.inr h)
      · rintro (h | h | h)
        · exact Or.inl h
        · exact Or.inl (h ▸ hr)
        · exact Or.inr h
    | none =>
      have hkeys : cloneKeys (run_clone_repo r.1 r.2 st).2 = cloneKeys st ++ [(r.1, r.2)] := by
        unfold cloneKeys
        rw [(run_clone_keys_miss hm).1, List.map_append]
        rfl
      rw [hkeys]
      simp only [List.mem_append, List.mem_cons, List.mem_singleton,
        List.not_mem_nil, or_false, Prod.mk.eta]
      tauto

/-- The cache invariant: its keys are distinct (each pair was cloned at most
once) and the clone counter equals the number of cached pairs. -/
structure CloneInv (st : CloneState) : Prop where
  nodup : (cloneKeys st).Nodup
  count : st.cloneCount = (cloneKeys st).length

theorem run_clone_inv {st : CloneState} (inv : CloneInv st) (r b : String) :
    CloneInv (run_clone_repo r b st).2 := by
  cases hm : memoLookup st (r, b) with
  | some p => rw [run_clone_hit hm]; exact inv
  | none =>
    have hnotmem : (r, b) ∉ cloneKeys st := (memoLookup_eq_none_iff st (r, b)).mp hm
    have hkeys : cloneKeys (run_clone_repo r b st).2 = cloneKeys st ++ [(r, b)] := by
      unfold cloneKeys
      rw [(run_clone_keys_miss hm).1, List.map_append]
      rfl
    constructor
    · rw [hkeys, List.nodup_append]
      exact ⟨inv.nodup, List.nodup_singleton _, by
        intro x hx hy
        rw [List.mem_singleton] at hy
        exact hnotmem (hy ▸ hx)⟩
    · rw [(run_clone_keys_miss hm).2, hkeys, List.length_append, ← inv.count]
      rfl

theorem runClones_inv (rs : List (String × String)) {st : CloneState} (inv : CloneInv st) :
    CloneInv (runClones rs st).2 := by
  induction rs generalizing st with
  | nil => exact inv
  | cons r rs ih =>
    show CloneInv (runClones rs (run_clone_repo r.1 r.2 st).2).2
    exact ih (run_clone_inv inv r.1 r.2)

/-- C7: over any sequence of clone requests in one run, the number of actual
clone operations equals the number of distinct `(repo, branch)` pairs — so
repeated requests for the same pair perform at most one clone and distinct
pairs clone independently — and every request's returned checkout path is a
function of its pair alone, so two requests with the same pair receive the
same local checkout path. -/
theorem C7_memoized_clone (reqs : List (String × String)) :
    (runClones reqs initialCloneState).2.cloneCount = reqs.dedup.length
      ∧ (runClones reqs initialCloneState).1
          = reqs.map (fun r => (memoLookup (runClones reqs initialCloneState).2 r).getD "") := by
  constructor
  · have inv := @runClones_inv reqs initialCloneState ⟨List.nodup_nil, rfl⟩
    have hmem : ∀ k, k ∈ cloneKeys (runClones reqs initialCloneState).2 ↔ k ∈ reqs.dedup := by
      intro k
      rw [runClones_keys_mem, List.mem_dedup]
      simp [cloneKeys, initialCloneState]
    have hperm := (List.perm_ext_iff_of_nodup inv.nodup (List.nodup_dedup reqs)).mpr hmem
    rw [inv.count, hperm.length_eq]
  · exact runClones_results reqs initialCloneState

/-! ## Lemmas about the per-source loop -/

theorem processAux_mem_outputs (gen : Nat → Except String GenTree)
    (ss : List SourceConfig) (i j : Nat) (hj : j < ss.length) (t : GenTree)
    (hok : gen (i + j) = Except.ok t) :
    (ss.get ⟨j, hj⟩, t) ∈ (processAux gen i ss).outputs := by
  induction ss generalizing i j with
  | nil => cases hj
  | cons s rest ih =>
    cases j with
    | zero =>
      show (s, t) ∈ (processAux gen i (s :: rest)).outputs
      unfold processAux
      rw [show gen i = Except.ok t from by simpa using hok]
      exact List.mem_cons_self _ _
    | succ j =>
      have hj' : j < rest.length := Nat.lt_of_succ_lt_succ hj
      have hmem := ih (i + 1) j hj' (by
        rw [show i + 1 + j = i + (j + 1) from by omega]
        exact hok)
      show (rest.get ⟨j, hj'⟩, t) ∈ (processAux gen i (s :: rest)).outputs
      unfold processAux
      cases hg : gen i with
      | ok u => exact List.mem_cons_of_mem _ hmem
      | error m => exact hmem

theorem processAux_failed_of_error (gen : Nat → Except String GenTree)
    (ss : List SourceConfig) (i j : Nat) (hj : j < ss.length) (msg : String)
    (herr : gen (i + j) = Except.error msg) :
    (processAux gen i ss).failed = true := by
  induction ss generalizing i j with
  | nil => cases hj
  | cons s rest ih =>
    cases j with
    | zero =>
      unfold processAux
      rw [show gen i = Except.error msg from by simpa using herr]
    | succ j =>
      have hj' : j < rest.length := Nat.lt_of_succ_lt_succ hj
      have hfail := ih (i + 1) j hj' (by
        rw [show i + 1 + j = i + (j + 1) from by omega]
        exact herr)
      unfold processAux
      cases hg : gen i with
      | ok u => exact hfail
      | error m => rfl

theorem processAux_error_mem (gen : Nat → Except String GenTree)
    (ss : List SourceConfig) (i j : Nat) (hj : j < ss.length) (msg : String)
    (herr : gen (i + j) = Except.error msg) :
    procErrMsg (ss.get ⟨j, hj⟩).input msg ∈ (processAux gen i ss).errors := by
  induction ss generalizing i j with
  | nil => cases hj
  | cons s rest ih =>
    cases j with
    | zero =>
      show procErrMsg s.input msg ∈ _
      unfold processAux
      rw [show gen i = Except.error msg from by simpa using herr]
      exact List.mem_cons_self _ _
    | succ j =>
      have hj' : j < rest.length := Nat.lt_of_succ_lt_succ hj
      have hmem := ih (i + 1) j hj' (by
        rw [show i + 1 + j = i + (j + 1) from by omega]
        exact herr)
      show procErrMsg (rest.get ⟨j, hj'⟩).input msg ∈ _
      unfold processAux
      cases hg : gen i with
      | ok u => exact hmem
      | error m => exact List.mem_cons_of_mem _ hmem

theorem processAux_not_failed (gen : Nat → Except String GenTree)
    (ss : List SourceConfig) (i : Nat)
    (hok : ∀ j, j < ss.length → ∃ t, gen (i + j) = Except.ok t) :
    (processAux gen i ss).failed = false ∧ (processAux gen i ss).errors = [] := by
  induction ss generalizing i with
  | nil => exact ⟨rfl, rfl⟩
  | cons s rest ih =>
    rcases hok 0 (Nat.succ_pos _) with ⟨t, ht⟩
    rw [Nat.add_zero] at ht
    have hrest := ih (i + 1) (fun j hj => by
      rw [show i + 1 + j = i + (j + 1) from by omega]
      exact hok (j + 1) (Nat.succ_lt_succ hj))
    unfold processAux
    rw [ht]
    exact hrest

theorem processAux_outputs_sub (gen : Nat → Except String GenTree)
    (ss : List SourceConfig) (i : Nat) :
    ∀ e ∈ (processAux gen i ss).outputs, e.1 ∈ ss := by
  induction ss generalizing i with
  | nil => intro e he; cases he
  | cons s rest ih =>
    intro e he
    unfold processAux at he
    cases hg : gen i with
    | ok u =>
      rw [hg] at he
      rcases List.mem_cons.mp he with rfl | hmem
      · exact List.mem_cons_self _ _
      · exact List.mem_cons_of_mem _ (ih (i + 1) e hmem)
    | error m =>
      rw [hg] at he
      exact List.mem_cons_of_mem _ (ih (i + 1) e he)

/-! ## Generic fold helpers for the verify loop -/

theorem foldl_pres_of_all {α β : Type} (f : β → α → β) (P : β → Prop) (l : List α)
    (hstep : ∀ b a, a ∈ l → P b → P (f b a)) :
    ∀ b, P b → P (List.foldl f b l) := by
  induction l with
  | nil => exact fun b hb => hb
  | cons a t ih =>
    intro b hb
    exact ih (fun b' a' ha' => hstep b' a' (List.mem_cons_of_mem _ ha'))
      (f b a) (hstep b a (List.mem_cons_self _ _) hb)

theorem foldl_event {α β : Type} (f : β → α → β) (P Q : β → Prop) {x : α} {l : List α}
    (hx : x ∈ l)
    (hP : ∀ b a, a ∈ l → P b → P (f b a))
    (hQ : ∀ b a, a ∈ l → P b → Q b → Q (f b a))
    (hev : ∀ b, P b → Q (f b x)) :
    ∀ b, P b → Q (List.foldl f b l) := by
  induction l with
  | nil => cases hx
  | cons a t ih =>
    intro b hb
    rcases List.mem_cons.mp hx with rfl | hx'
    · have hPQ : P (f b x) ∧ Q (f b x) :=
        ⟨hP b x (List.mem_cons_self _ _) hb, hev b hb⟩
      have := foldl_pres_of_all f (fun b' => P b' ∧ Q b') t
        (fun b' a' ha' hb' => ⟨hP b' a' (List.mem_cons_of_mem _ ha') hb'.1,
          hQ b' a' (List.mem_cons_of_mem _ ha') hb'.1 hb'.2⟩)
        (f b x) hPQ
      exact this.2
    · exact ih hx'
        (fun b' a' ha' => hP b' a' (List.mem_cons_of_mem _ ha'))
        (fun b' a' ha' => hQ b' a' (List.mem_cons_of_mem _ ha'))
        (f b a) (hP b a (List.mem_cons_self _ _) hb)

/-! ## C1: all deletions happen before any copy -/

/-- C1: in publish mode `main` runs one loop deleting every distinct touched
output location and only then a second loop copying generated output — so
for two sources resolving to the same output location, each generating its
own distinct file, both files are present in that location after publish
mode: neither source's deletion destroys the other's freshly copied file. -/
theorem C1_deletes_before_copies_shared_output (d : BaseModelConfig)
    (s1 s2 : SourceConfig) (gen : Nat → Except String GenTree)
    (r1 c1 r2 c2 : String) (fs : FS)
    (hg0 : gen 0 = Except.ok [(r1, c1)])
    (hg1 : gen 1 = Except.ok [(r2, c2)])
    (hshare : outPath d s2 = outPath d s1)
    (hne : r1 ≠ r2) :
    (∀ (cfg : LithicConfig) (g : Nat → Except String GenTree) (fs0 : FS),
        (main cfg g true fs0).fs
          = copyPhase cfg.default (processSources cfg.sources g).outputs
              (deletePhase (modulePaths cfg.default (processSources cfg.sources g).outputs) fs0))
      ∧ lookupFS (main ⟨[s1, s2], d⟩ gen true fs).fs (outPath d s1 ++ "/" ++ r1) = some c1
      ∧ lookupFS (main ⟨[s1, s2], d⟩ gen true fs).fs (outPath d s1 ++ "/" ++ r2) = some c2 := by
  have houts : (processSources [s1, s2] gen).outputs
      = [(s1, [(r1, c1)]), (s2, [(r2, c2)])] := by
    simp [processSources, processAux, hg0, hg1]
  refine ⟨fun cfg g fs0 => rfl, ?_, ?_⟩
  · show lookupFS (publishPhase d (processSources [s1, s2] gen).outputs fs) _ = _
    rw [houts]
    simp only [publishPhase, copyPhase, copytree, List.foldl_cons, List.foldl_nil]
    rw [lookupFS_fsWrite]
    rw [if_neg (by
      rw [hshare]
      intro h
      exact hne ((join_eq_join_iff _ _ _).mp h))]
    rw [lookupFS_fsWrite, if_pos rfl]
  · show lookupFS (publishPhase d (processSources [s1, s2] gen).outputs fs) _ = _
    rw [houts]
    simp only [publishPhase, copyPhase, copytree, List.foldl_cons, List.foldl_nil]
    rw [lookupFS_fsWrite, if_pos (by rw [hshare])]

/-- Witness for C1: two concrete sources sharing the output location `"m"`,
publishing `a.py` and `b.py`; both land. -/
theorem C1_deletes_before_copies_shared_output_witness :
    lookupFS (main ⟨[{ input := "a.yaml" }, { input := "b.yaml" }],
        ⟨"org/repo", "main", "", "m"⟩⟩
      (fun n => if n = 0 then Except.ok [("a.py", "A")] else Except.ok [("b.py", "B")])
      true []).fs ("m" ++ "/" ++ "a.py") = some "A" :=
  (C1_deletes_before_copies_shared_output ⟨"org/repo", "main", "", "m"⟩
    { input := "a.yaml" } { input := "b.yaml" }
    (fun n => if n = 0 then Except.ok [("a.py", "A")] else Except.ok [("b.py", "B")])
    "a.py" "A" "b.py" "B" [] rfl rfl rfl (by decide)).2.1

/-! ## C2: extra-file handling in both modes -/

theorem treeLookupLast_eq_none (t : GenTree) (m q : String)
    (h : ∀ f ∈ t, m ++ "/" ++ f.1 ≠ q) :
    treeLookupLast t m q = none := by
  unfold treeLookupLast
  rw [List.find?_eq_none.mpr]
  · rfl
  · intro f hf hbeq
    exact h f (List.mem_reverse.mp hf) (by simpa using hbeq)

theorem outsLookupLast_eq_none (d : BaseModelConfig)
    (outs : List (SourceConfig × GenTree)) (q : String)
    (h : ∀ e ∈ outs, ∀ f ∈ e.2, outPath d e.1 ++ "/" ++ f.1 ≠ q) :
    outsLookupLast d outs q = none := by
  unfold outsLookupLast
  rw [List.findSome?_eq_none_iff.mpr]
  intro e he
  exact treeLookupLast_eq_none _ _ _ (h e (List.mem_reverse.mp he))

theorem modulePaths_any_under (d : BaseModelConfig) {outs : List (SourceConfig × GenTree)}
    {q : String} {e : SourceConfig × GenTree} (hmem : e ∈ outs)
    (hu : underDir (outPath d e.1) q = true) :
    (modulePaths d outs).any (fun m => underDir m q) = true := by
  rw [List.any_eq_true]
  refine ⟨outPath d e.1, ?_, hu⟩
  unfold modulePaths
  rw [List.mem_dedup]
  exact List.mem_map_of_mem _ hmem

/-- Publish mode erases every file below a touched output location that no
generated listing writes back. -/
theorem publishPhase_removes (d : BaseModelConfig) (outs : List (SourceConfig × GenTree))
    (fs : FS) (q : String)
    (htouch : ∃ e ∈ outs, underDir (outPath d e.1) q = true)
    (hnowrite : ∀ e ∈ outs, ∀ f ∈ e.2, outPath d e.1 ++ "/" ++ f.1 ≠ q) :
    lookupFS (publishPhase d outs fs) q = none := by
  unfold publishPhase
  rw [lookupFS_copyPhase, outsLookupLast_eq_none d outs q hnowrite, Option.none_or,
    lookupFS_deletePhase]
  rcases htouch with ⟨e, he, hu⟩
  rw [if_pos (modulePaths_any_under d he hu)]

/-- A path in the `existing_files` set that no generated file successfully
matches survives one comparison step. -/
theorem verifyFile_keeps {q : String} (m : String) (fs : FS) (st : VerifyState)
    (rel content : String)
    (hcond : m ++ "/" ++ basename rel = q →
      ∀ disk, lookupFS fs q = some disk → readLines content ≠ readLines disk)
    (hq : q ∈ st.existing) :
    q ∈ (verifyFile m fs st rel content).existing := by
  unfold verifyFile
  cases hl : lookupFS fs (m ++ "/" ++ basename rel) with
  | none => exact hq
  | some disk =>
    show q ∈ (verifyFileDiff (m ++ "/" ++ basename rel) st content disk).existing
    unfold verifyFileDiff
    cases hd : run_diff content disk with
    | error msg => exact hq
    | ok u =>
      by_cases htq : m ++ "/" ++ basename rel = q
      · exfalso
        cases u
        exact hcond htq disk (htq ▸ hl) ((run_diff_ok_iff _ _).mp hd)
      · show q ∈ st.existing.erase (m ++ "/" ++ basename rel)
        exact (List.mem_erase_of_ne (fun hh => htq hh.symm)).mpr hq

/-- Verify mode reports a pre-existing file matched by no generated file as
an extra file and marks the run failed. -/
theorem verifyPhase_extra_reported (d : BaseModelConfig)
    (outs : List (SourceConfig × GenTree)) (fs : FS) (q : String)
    (hq0 : q ∈ initialExisting d outs fs)
    (hunmatched : ∀ e ∈ outs, ∀ f ∈ e.2,
      outPath d e.1 ++ "/" ++ basename f.1 = q →
      ∀ disk, lookupFS fs q = some disk → readLines f.2 ≠ readLines disk) :
    (verifyPhase d outs fs).failed = true
      ∧ ∃ extras, q ∈ extras ∧ extraFilesMsg extras ∈ (verifyPhase d outs fs).errors := by
  have hkeep : q ∈ (outs.foldl (verifySource d fs)
      ⟨initialExisting d outs fs, [], false⟩).existing := by
    refine foldl_pres_of_all (verifySource d fs) (fun st => q ∈ st.existing) outs
      ?_ _ hq0
    intro st e he hst
    unfold verifySource
    refine foldl_pres_of_all _ (fun st => q ∈ st.existing) e.2 ?_ st hst
    intro st' f hf hst'
    exact verifyFile_keeps _ fs st' f.1 f.2 (hunmatched e he f hf) hst'
  unfold verifyPhase reportExtras
  set st1 := outs.foldl (verifySource d fs) ⟨initialExisting d outs fs, [], false⟩ with hst1
  have hne : st1.existing.isEmpty = false := by
    cases hemp : st1.existing with
    | nil => rw [hemp] at hkeep; cases hkeep
    | cons a t => rfl
  rw [if_neg (by rw [hne]; exact Bool.false_ne_true)]
  exact ⟨rfl, st1.existing, hkeep,
    List.mem_append_right _ (List.mem_singleton.mpr rfl)⟩

/-- C2: a file present in a touched output location before reconciliation
and matched by no current source's generated output is, in publish mode,
removed from the location, and in verify mode reported as an extra file with
a nonzero exit code. -/
theorem C2_extra_file_detection (cfg : LithicConfig) (gen : Nat → Except String GenTree)
    (fs : FS) (q : String) :
    ((∃ e ∈ (processSources cfg.sources gen).outputs,
        underDir (outPath cfg.default e.1) q = true) →
      (∀ e ∈ (processSources cfg.sources gen).outputs, ∀ f ∈ e.2,
        outPath cfg.default e.1 ++ "/" ++ f.1 ≠ q) →
      lookupFS (main cfg gen true fs).fs q = none)
    ∧ (q ∈ initialExisting cfg.default (processSources cfg.sources gen).outputs fs →
      (∀ e ∈ (processSources cfg.sources gen).outputs, ∀ f ∈ e.2,
        outPath cfg.default e.1 ++ "/" ++ basename f.1 = q →
        ∀ disk, lookupFS fs q = some disk → readLines f.2 ≠ readLines disk) →
      (main cfg gen false fs).exitCode = 1
        ∧ ∃ extras, q ∈ extras ∧ extraFilesMsg extras ∈ (main cfg gen false fs).errors) := by
  constructor
  · intro htouch hnowrite
    show lookupFS (publishPhase cfg.default (processSources cfg.sources gen).outputs fs) q
      = none
    exact publishPhase_removes _ _ fs q htouch hnowrite
  · intro hq0 hunmatched
    have hrep := verifyPhase_extra_reported cfg.default
      (processSources cfg.sources gen).outputs fs q hq0 hunmatched
    constructor
    · show (if (processSources cfg.sources gen).failed
          || (verifyPhase cfg.default (processSources cfg.sources gen).outputs fs).failed
        then 1 else 0) = 1
      rw [hrep.1, Bool.or_true, if_pos rfl]
    · rcases hrep.2 with ⟨extras, hqe, hmem⟩
      exact ⟨extras, hqe, List.mem_append_right _ hmem⟩

/-- Witness for C2 at a concrete run: one source generating `a.py` into
location `"m"`, with a stale `m/extra.py` on disk — publish removes it,
verify exits 1. -/
theorem C2_extra_file_detection_witness :
    lookupFS (main ⟨[{ input := "a.yaml" }], ⟨"org/repo", "main", "", "m"⟩⟩
        (fun _ => Except.ok [("a.py", "x")]) true
        [("m/extra.py", "y"), ("m/a.py", "x")]).fs "m/extra.py" = none
      ∧ (main ⟨[{ input := "a.yaml" }], ⟨"org/repo", "main", "", "m"⟩⟩
          (fun _ => Except.ok [("a.py", "x")]) false
          [("m/extra.py", "y"), ("m/a.py", "x")]).exitCode = 1 := by
  have h := C2_extra_file_detection
    ⟨[{ input := "a.yaml" }], ⟨"org/repo", "main", "", "m"⟩⟩
    (fun _ => Except.ok [("a.py", "x")])
    [("m/extra.py", "y"), ("m/a.py", "x")] "m/extra.py"
  have hunm : ∀ e ∈ (processSources [{ input := "a.yaml" }]
        (fun _ => Except.ok [("a.py", "x")])).outputs, ∀ f ∈ e.2,
      outPath ⟨"org/repo", "main", "", "m"⟩ e.1 ++ "/" ++ basename f.1 = "m/extra.py" →
      ∀ disk, lookupFS [("m/extra.py", "y"), ("m/a.py", "x")] "m/extra.py" = some disk →
        readLines f.2 ≠ readLines disk := by
    intro e he f hf hpath
    exfalso
    have houts : (processSources [{ input := "a.yaml" }]
        (fun _ => Except.ok [("a.py", "x")])).outputs
        = [({ input := "a.yaml" }, [("a.py", "x")])] := by decide
    rw [houts, List.mem_singleton] at he
    subst he
    have hf' : f ∈ [(("a.py" : String), ("x" : String))] := hf
    rw [List.mem_singleton] at hf'
    subst hf'
    exact absurd hpath (by decide)
  exact ⟨h.1 ⟨({ input := "a.yaml" }, [("a.py", "x")]), by decide, by decide⟩ (by decide),
    (h.2 (by decide) hunm).1⟩

/-! ## C4: drift is reported, not corrected -/

theorem verifyFile_errors_mono {msg : String} (m : String) (fs : FS) (st : VerifyState)
    (rel content : String) (h : msg ∈ st.errors) :
    msg ∈ (verifyFile m fs st rel content).errors := by
  unfold verifyFile
  cases lookupFS fs (m ++ "/" ++ basename rel) with
  | none => exact List.mem_append_left _ h
  | some disk =>
    show msg ∈ (verifyFileDiff (m ++ "/" ++ basename rel) st content disk).errors
    unfold verifyFileDiff
    cases run_diff content disk with
    | ok u => exact h
    | error m2 => exact List.mem_append_left _ h

theorem verifyFile_failed_mono (m : String) (fs : FS) (st : VerifyState)
    (rel content : String) (h : st.failed = true) :
    (verifyFile m fs st rel content).failed = true := by
  unfold verifyFile
  cases lookupFS fs (m ++ "/" ++ basename rel) with
  | none => rfl
  | some disk =>
    show (verifyFileDiff (m ++ "/" ++ basename rel) st content disk).failed = true
    unfold verifyFileDiff
    cases run_diff content disk with
    | ok u => exact h
    | error m2 => rfl

theorem run_diff_error_eq {c1 c2 : String} (h : readLines c1 ≠ readLines c2) :
    run_diff c1 c2 = Except.error (diffMsg (readLines c1) (readLines c2)) := by
  unfold run_diff
  cases hu : unified_diff (readLines c1) (readLines c2) with
  | nil => exact absurd ((unified_diff_eq_nil_iff _ _).mp hu) h
  | cons x t => rfl

/-- A drifting file adds the unified-diff message and marks the run
failed. -/
theorem verifyFile_drift {m : String} {fs : FS} (st : VerifyState)
    {rel content disk : String}
    (hdisk : lookupFS fs (m ++ "/" ++ basename rel) = some disk)
    (hdrift : readLines content ≠ readLines disk) :
    diffMsg (readLines content) (readLines disk)
        ∈ (verifyFile m fs st rel content).errors
      ∧ (verifyFile m fs st rel content).failed = true := by
  unfold verifyFile
  rw [hdisk]
  show diffMsg (readLines content) (readLines disk)
      ∈ (verifyFileDiff (m ++ "/" ++ basename rel) st content disk).errors
    ∧ (verifyFileDiff (m ++ "/" ++ basename rel) st content disk).failed = true
  unfold verifyFileDiff
  rw [run_diff_error_eq hdrift]
  exact ⟨List.mem_append_right _ (List.mem_singleton.mpr rfl), rfl⟩

theorem reportExtras_keeps {msg : String} (st : VerifyState)
    (h : msg ∈ st.errors ∧ st.failed = true) :
    msg ∈ (reportExtras st).errors ∧ (reportExtras st).failed = true := by
  unfold reportExtras
  by_cases he : st.existing.isEmpty = true
  · rw [if_pos he]; exact h
  · rw [if_neg he]; exact ⟨List.mem_append_left _ h.1, rfl⟩

set_option maxHeartbeats 1000000 in
/-- The verify fold reports the drift of any generated file whose on-disk
counterpart differs. -/
theorem verifyPhase_drift_reported (d : BaseModelConfig)
    (outs : List (SourceConfig × GenTree)) (fs : FS)
    {e : SourceConfig × GenTree} {f : String × String} {disk : String}
    (hmem : e ∈ outs) (hf : f ∈ e.2)
    (hdisk : lookupFS fs (outPath d e.1 ++ "/" ++ basename f.1) = some disk)
    (hdrift : readLines f.2 ≠ readLines disk) :
    diffMsg (readLines f.2) (readLines disk) ∈ (verifyPhase d outs fs).errors
      ∧ (verifyPhase d outs fs).failed = true := by
  unfold verifyPhase
  apply reportExtras_keeps
  refine foldl_event (verifySource d fs) (fun _ => True)
    (fun st => diffMsg (readLines f.2) (readLines disk) ∈ st.errors ∧ st.failed = true)
    hmem (fun _ _ _ _ => trivial) ?_ ?_ _ trivial
  · intro st e' he' _ hQ
    unfold verifySource
    refine foldl_pres_of_all _ (fun st =>
      diffMsg (readLines f.2) (readLines disk) ∈ st.errors ∧ st.failed = true) e'.2
      ?_ st hQ
    intro st' f' hf' hst'
    exact ⟨verifyFile_errors_mono _ fs st' f'.1 f'.2 hst'.1,
      verifyFile_failed_mono _ fs st' f'.1 f'.2 hst'.2⟩
  · intro st _
    unfold verifySource
    refine foldl_event (fun acc g => verifyFile (outPath d e.1) fs acc g.1 g.2)
      (fun _ => True)
      (fun st => diffMsg (readLines f.2) (readLines disk) ∈ st.errors ∧ st.failed = true)
      hf (fun _ _ _ _ => trivial) ?_ ?_ st trivial
    · intro st' f' hf' _ hst'
      exact ⟨verifyFile_errors_mono _ fs st' f'.1 f'.2 hst'.1,
        verifyFile_failed_mono _ fs st' f'.1 f'.2 hst'.2⟩
    · intro st' _
      exact verifyFile_drift st' hdisk hdrift

/-- C4: in verify mode, a generated file whose on-disk counterpart differs
by at least one line produces a reported failure carrying the unified diff
of the two line lists, the on-disk tree is not modified, and the run exits
nonzero. -/
theorem C4_verify_drift_reported (cfg : LithicConfig) (gen : Nat → Except String GenTree)
    (fs : FS) (e : SourceConfig × GenTree) (f : String × String) (disk : String)
    (hmem : e ∈ (processSources cfg.sources gen).outputs)
    (hf : f ∈ e.2)
    (hdisk : lookupFS fs (outPath cfg.default e.1 ++ "/" ++ basename f.1) = some disk)
    (hdrift : readLines f.2 ≠ readLines disk) :
    (main cfg gen false fs).fs = fs
      ∧ (main cfg gen false fs).exitCode = 1
      ∧ diffMsg (readLines f.2) (readLines disk) ∈ (main cfg gen false fs).errors := by
  have hrep := verifyPhase_drift_reported cfg.default
    (processSources cfg.sources gen).outputs fs hmem hf hdisk hdrift
  refine ⟨rfl, ?_, ?_⟩
  · show (if (processSources cfg.sources gen).failed
        || (verifyPhase cfg.default (processSources cfg.sources gen).outputs fs).failed
      then 1 else 0) = 1
    rw [hrep.2, Bool.or_true, if_pos rfl]
  · exact List.mem_append_right _ hrep.1

/-- Witness for C4: one source generating `a.py` with content `"x"` against
an on-disk `"y"` — drift is reported and the run exits 1. -/
theorem C4_verify_drift_reported_witness :
    (main ⟨[{ input := "a.yaml" }], ⟨"org/repo", "main", "", "m"⟩⟩
        (fun _ => Except.ok [("a.py", "x")]) false [("m/a.py", "y")]).fs
      = [("m/a.py", "y")]
      ∧ (main ⟨[{ input := "a.yaml" }], ⟨"org/repo", "main", "", "m"⟩⟩
          (fun _ => Except.ok [("a.py", "x")]) false [("m/a.py", "y")]).exitCode = 1 := by
  have h := C4_verify_drift_reported
    ⟨[{ input := "a.yaml" }], ⟨"org/repo", "main", "", "m"⟩⟩
    (fun _ => Except.ok [("a.py", "x")]) [("m/a.py", "y")]
    ({ input := "a.yaml" }, [("a.py", "x")]) ("a.py", "x") "y"
    (by decide) (by decide) (by decide) (by decide)
  exact ⟨h.1, h.2.1⟩

/-! ## C6: per-source failure isolation -/

/-- C6: a failing source's exception is caught and its message recorded,
every other source is still processed — each successful generation still
appears among the outputs that publish/verify consume — and the run exits 1
in either mode, reflecting the failure rather than the other sources'
success. -/
theorem C6_per_source_isolation (cfg : LithicConfig) (gen : Nat → Except String GenTree)
    (generateFlag : Bool) (fs : FS) (i : Nat) (hi : i < cfg.sources.length)
    (msg : String) (herr : gen i = Except.error msg) :
    (main cfg gen generateFlag fs).exitCode = 1
      ∧ procErrMsg (cfg.sources.get ⟨i, hi⟩).input msg
          ∈ (main cfg gen generateFlag fs).errors
      ∧ (∀ (j : Nat) (hj : j < cfg.sources.length) (t : GenTree), gen j = Except.ok t →
          (cfg.sources.get ⟨j, hj⟩, t) ∈ (processSources cfg.sources gen).outputs)
      ∧ (∀ e ∈ (processSources cfg.sources gen).outputs, e.1 ∈ cfg.sources) := by
  have hfail : (processSources cfg.sources gen).failed = true :=
    processAux_failed_of_error gen cfg.sources 0 i hi msg (by simpa using herr)
  have hmem : procErrMsg (cfg.sources.get ⟨i, hi⟩).input msg
      ∈ (processSources cfg.sources gen).errors :=
    processAux_error_mem gen cfg.sources 0 i hi msg (by simpa using herr)
  refine ⟨?_, ?_, ?_, processAux_outputs_sub gen cfg.sources 0⟩
  · cases generateFlag with
    | true =>
      show (if (processSources cfg.sources gen).failed then 1 else 0) = 1
      rw [hfail, if_pos rfl]
    | false =>
      show (if (processSources cfg.sources gen).failed
          || (verifyPhase cfg.default (processSources cfg.sources gen).outputs fs).failed
        then 1 else 0) = 1
      rw [hfail, Bool.true_or, if_pos rfl]
  · cases generateFlag with
    | true => exact hmem
    | false => exact List.mem_append_left _ hmem
  · intro j hj t hok
    exact processAux_mem_outputs gen cfg.sources 0 j hj t (by simpa using hok)

/-- Witness for C6: source 0's clone fails, source 1 publishes; the run exits
1 and source 1's output is still produced. -/
theorem C6_per_source_isolation_witness :
    (main ⟨[{ input := "a.yaml" },
          { input := "b.yaml", output_module_path := some (some "m2") }],
        ⟨"org/repo", "main", "", "m"⟩⟩
      (fun n => if n = 0 then Except.error "clone failed" else Except.ok [("b.py", "B")])
      true []).exitCode = 1 := by
  have h := C6_per_source_isolation
    ⟨[{ input := "a.yaml" },
        { input := "b.yaml", output_module_path := some (some "m2") }],
      ⟨"org/repo", "main", "", "m"⟩⟩
    (fun n => if n = 0 then Except.error "clone failed" else Except.ok [("b.py", "B")])
    true [] 0 (by decide) "clone failed" rfl
  exact h.1

/-! ## C9: only successful sources' output locations are touched -/

/-- Publish mode leaves every path that lies under no successful source's
resolved output location byte-for-byte unchanged. -/
theorem publishPhase_frame (d : BaseModelConfig) (outs : List (SourceConfig × GenTree))
    (fs : FS) (q : String)
    (h : ∀ e ∈ outs, underDir (outPath d e.1) q = false) :
    lookupFS (publishPhase d outs fs) q = lookupFS fs q := by
  unfold publishPhase
  rw [lookupFS_copyPhase, outsLookupLast_eq_none d outs q ?hw, Option.none_or,
    lookupFS_deletePhase, if_neg ?hd]
  case hw =>
    intro e he f hf heq
    have hu := underDir_join (outPath d e.1) f.1
    rw [heq, h e he] at hu
    exact Bool.noConfusion hu
  case hd =>
    intro hany
    rw [List.any_eq_true] at hany
    rcases hany with ⟨m, hm, hum⟩
    unfold modulePaths at hm
    rw [List.mem_dedup, List.mem_map] at hm
    rcases hm with ⟨e, he, rfl⟩
    rw [h e he] at hum
    exact Bool.noConfusion hum

/-- C9: in publish mode, only the resolved output locations of sources that
completed generation successfully are deleted and repopulated: a file under
the failed source's output location, shared with no successful source's
location, is left unchanged by the run. -/
theorem C9_failed_source_output_untouched (cfg : LithicConfig)
    (gen : Nat → Except String GenTree) (fs : FS) (i : Nat) (hi : i < cfg.sources.length)
    (msg : String) (herr : gen i = Except.error msg) (q : String)
    (hq : underDir (outPath cfg.default (cfg.sources.get ⟨i, hi⟩)) q = true)
    (hdisj : ∀ e ∈ (processSources cfg.sources gen).outputs,
        underDir (outPath cfg.default e.1) q = false) :
    lookupFS (main cfg gen true fs).fs q = lookupFS fs q := by
  show lookupFS (publishPhase cfg.default (processSources cfg.sources gen).outputs fs) q
    = lookupFS fs q
  exact publishPhase_frame _ _ fs q hdisj

/-- Witness for C9: source 0 (location `"m"`) fails while source 1 publishes
into `"m2"`; the stale file under `"m"` survives untouched. -/
theorem C9_failed_source_output_untouched_witness :
    lookupFS (main ⟨[{ input := "a.yaml" },
          { input := "b.yaml", output_module_path := some (some "m2") }],
        ⟨"org/repo", "main", "", "m"⟩⟩
      (fun n => if n = 0 then Except.error "clone failed" else Except.ok [("b.py", "B")])
      true [("m/old.py", "O")]).fs "m/old.py"
      = lookupFS [("m/old.py", "O")] "m/old.py" :=
  C9_failed_source_output_untouched
    ⟨[{ input := "a.yaml" },
        { input := "b.yaml", output_module_path := some (some "m2") }],
      ⟨"org/repo", "main", "", "m"⟩⟩
    (fun n => if n = 0 then Except.error "clone failed" else Except.ok [("b.py", "B")])
    [("m/old.py", "O")] 0 (by decide) "clone failed" rfl "m/old.py" (by decide) (by decide)

/-! ## C8: nested generated paths are flattened to basenames -/

theorem takeWhile_idem {α : Type} (q : α → Bool) (l : List α) :
    (l.takeWhile q).takeWhile q = l.takeWhile q :=
  List.takeWhile_eq_self_iff.mpr (fun x hx => List.mem_takeWhile_imp hx)

theorem basename_idem (p : String) : basename (basename p) = basename p := by
  unfold basename
  apply congrArg String.mk
  show (((p.data.reverse.takeWhile (fun c => c != '/')).reverse).reverse.takeWhile
      (fun c => c != '/')).reverse
    = (p.data.reverse.takeWhile (fun c => c != '/')).reverse
  rw [List.reverse_reverse, takeWhile_idem]

theorem verifyFile_basename (m : String) (fs : FS) (st : VerifyState)
    (rel content : String) :
    verifyFile m fs st (basename rel) content = verifyFile m fs st rel content := by
  unfold verifyFile
  rw [basename_idem]

theorem verifySource_flatten (d : BaseModelConfig) (fs : FS) (st : VerifyState)
    (e : SourceConfig × GenTree) :
    verifySource d fs st (e.1, e.2.map (fun f => (basename f.1, f.2)))
      = verifySource d fs st e := by
  unfold verifySource
  rw [List.foldl_map]
  congr 1
  funext acc f
  exact verifyFile_basename _ fs acc f.1 f.2

theorem initialExisting_flatten (d : BaseModelConfig)
    (outs : List (SourceConfig × GenTree)) (fs : FS) :
    initialExisting d (outs.map (fun e => (e.1, e.2.map (fun f => (basename f.1, f.2))))) fs
      = initialExisting d outs fs := by
  unfold initialExisting
  rw [List.foldl_map]

theorem verifyPhase_flatten (d : BaseModelConfig)
    (outs : List (SourceConfig × GenTree)) (fs : FS) :
    verifyPhase d (outs.map (fun e => (e.1, e.2.map (fun f => (basename f.1, f.2))))) fs
      = verifyPhase d outs fs := by
  unfold verifyPhase
  rw [initialExisting_flatten, List.foldl_map]
  congr 1
  congr 1
  funext st e
  exact verifySource_flatten d fs st e

/-- C8: verify mode compares each generated file against the path formed by
joining the source's resolved output location with the file's *basename*
only, and removes that same flattened path from the extra-file set — so
replacing every generated relative path by its basename changes nothing,
and concretely a generated `sub/f.py` is diffed (successfully) against the
top-level `m/f.py` while the true nested on-disk copy `m/sub/f.py` is left
behind as an extra file. -/
theorem C8_basename_flattening :
    (∀ (d : BaseModelConfig) (outs : List (SourceConfig × GenTree)) (fs : FS),
        verifyPhase d (outs.map (fun e => (e.1, e.2.map (fun f => (basename f.1, f.2))))) fs
          = verifyPhase d outs fs)
      ∧ (main ⟨[{ input := "a.yaml" }], ⟨"org/repo", "main", "", "m"⟩⟩
            (fun _ => Except.ok [("sub/f.py", "x")]) false
            [("m/f.py", "x"), ("m/sub/f.py", "x")]).errors
          = [extraFilesMsg ["m/sub/f.py"]]
      ∧ (main ⟨[{ input := "a.yaml" }], ⟨"org/repo", "main", "", "m"⟩⟩
            (fun _ => Except.ok [("sub/f.py", "x")]) false
            [("m/f.py", "x"), ("m/sub/f.py", "x")]).exitCode = 1 :=
  ⟨verifyPhase_flatten, by decide, by decide⟩

/-! ## C5: idempotence of publish and the cleanliness of the verify rerun -/

/-- Publishing the same outputs twice is byte-identical to publishing them
once: the second run's deletions remove exactly what the first run's copies
wrote, and the copies then restore it. -/
theorem publishPhase_idem (d : BaseModelConfig) (outs : List (SourceConfig × GenTree))
    (fs0 : FS) (p : String) :
    lookupFS (publishPhase d outs (publishPhase d outs fs0)) p
      = lookupFS (publishPhase d outs fs0) p := by
  unfold publishPhase
  rw [lookupFS_copyPhase, lookupFS_copyPhase]
  cases h : outsLookupLast d outs p with
  | some v => rfl
  | none =>
    rw [Option.none_or, Option.none_or, lookupFS_deletePhase, lookupFS_deletePhase]
    by_cases ha : (modulePaths d outs).any (fun m => underDir m p) = true
    · rw [if_pos ha, if_pos ha]
    · rw [if_neg ha, if_neg ha, lookupFS_copyPhase, h, Option.none_or,
        lookupFS_deletePhase, if_neg ha]

theorem outsLookupLast_isSome_of_write (d : BaseModelConfig)
    {outs : List (SourceConfig × GenTree)} {e : SourceConfig × GenTree}
    {f : String × String} (he : e ∈ outs) (hf : f ∈ e.2) :
    (outsLookupLast d outs (outPath d e.1 ++ "/" ++ f.1)).isSome = true := by
  unfold outsLookupLast
  cases h : List.findSome? (fun e2 => treeLookupLast e2.2 (outPath d e2.1)
      (outPath d e.1 ++ "/" ++ f.1)) outs.reverse with
  | some v => rfl
  | none =>
    exfalso
    rw [List.findSome?_eq_none_iff] at h
    have htree := h e (List.mem_reverse.mpr he)
    unfold treeLookupLast at htree
    cases hfind : List.find? (fun g => outPath d e.1 ++ "/" ++ g.1
        == outPath d e.1 ++ "/" ++ f.1) e.2.reverse with
    | some v => rw [hfind] at htree; simp at htree
    | none =>
      rw [List.find?_eq_none] at hfind
      exact hfind f (List.mem_reverse.mpr hf) (by simp)

theorem outsLookupLast_some_inv (d : BaseModelConfig)
    {outs : List (SourceConfig × GenTree)} {q : String} {v : String}
    (h : outsLookupLast d outs q = some v) :
    ∃ e ∈ outs, ∃ f ∈ e.2, outPath d e.1 ++ "/" ++ f.1 = q ∧ f.2 = v := by
  unfold outsLookupLast at h
  rcases List.exists_of_findSome?_eq_some h with ⟨e, he, hsome⟩
  unfold treeLookupLast at hsome
  cases hfind : List.find? (fun g => outPath d e.1 ++ "/" ++ g.1 == q) e.2.reverse with
  | none => rw [hfind] at hsome; simp at hsome
  | some g =>
    rw [hfind] at hsome
    have hg := List.mem_of_find?_eq_some hfind
    have hp : outPath d e.1 ++ "/" ++ g.1 = q := by simpa using List.find?_some hfind
    have hv : g.2 = v := by simpa using hsome
    exact ⟨e, List.mem_reverse.mp he, g, List.mem_reverse.mp hg, hp, hv⟩

/-- After publish, every generated file is on disk at its write path with its
own content, provided no two generated files collide at one target path with
different contents. -/
theorem publish_lookup_of_write (d : BaseModelConfig)
    {outs : List (SourceConfig × GenTree)} (fs0 : FS)
    {e : SourceConfig × GenTree} {f : String × String}
    (he : e ∈ outs) (hf : f ∈ e.2)
    (hnocol : ∀ e1 ∈ outs, ∀ f1 ∈ e1.2, ∀ e2 ∈ outs, ∀ f2 ∈ e2.2,
      outPath d e1.1 ++ "/" ++ f1.1 = outPath d e2.1 ++ "/" ++ f2.1 → f1.2 = f2.2) :
    lookupFS (publishPhase d outs fs0) (outPath d e.1 ++ "/" ++ f.1) = some f.2 := by
  unfold publishPhase
  rw [lookupFS_copyPhase]
  cases h : outsLookupLast d outs (outPath d e.1 ++ "/" ++ f.1) with
  | none =>
    exfalso
    have hs := outsLookupLast_isSome_of_write d he hf
    rw [h] at hs
    exact Bool.noConfusion hs
  | some v =>
    rcases outsLookupLast_some_inv d h with ⟨e2, he2, f2, hf2, hpath, hval⟩
    have hfv : f.2 = v := hval ▸ hnocol e he f hf e2 he2 f2 hf2 hpath.symm
    rw [hfv]
    rfl

theorem mem_foldl_append {α β : Type} [DecidableEq β] (g : α → List β) (l : List α)
    (init : List β) (q : β) :
    q ∈ l.foldl (fun acc e => acc ++ g e) init ↔ q ∈ init ∨ ∃ e ∈ l, q ∈ g e := by
  induction l generalizing init with
  | nil => simp
  | cons a t ih =>
    rw [List.foldl_cons, ih, List.mem_append, List.exists_mem_cons_iff]
    tauto

theorem mem_initialExisting (d : BaseModelConfig) (outs : List (SourceConfig × GenTree))
    (fs : FS) (q : String) :
    q ∈ initialExisting d outs fs
      ↔ ∃ e ∈ outs, q ∈ list_files (outPath d e.1) fs := by
  unfold initialExisting
  rw [List.mem_dedup, mem_foldl_append]
  simp

theorem mem_keys_iff_lookup (fs : FS) (q : String) :
    q ∈ fs.map Prod.fst ↔ (lookupFS fs q).isSome = true := by
  unfold lookupFS
  constructor
  · intro h
    rcases List.mem_map.mp h with ⟨e, he, rfl⟩
    have hsome : (List.find? (fun x => x.1 == e.1) fs).isSome = true :=
      List.find?_isSome.mpr ⟨e, he, by simp⟩
    cases hfind : List.find? (fun x => x.1 == e.1) fs with
    | none => rw [hfind] at hsome; exact Bool.noConfusion hsome
    | some v => rfl
  · intro h
    cases hfind : List.find? (fun x => x.1 == q) fs with
    | none => rw [hfind] at h; exact Bool.noConfusion h
    | some v =>
      have hkey : v.1 = q := by simpa using List.find?_some hfind
      exact hkey ▸ List.mem_map_of_mem Prod.fst (List.mem_of_find?_eq_some hfind)

/-- Every file found below a touched output location after publish was
written by some generated file of this run. -/
theorem publish_existing_from_write (d : BaseModelConfig)
    (outs : List (SourceConfig × GenTree)) (fs0 : FS) {q : String}
    (hq : q ∈ initialExisting d outs (publishPhase d outs fs0)) :
    ∃ e ∈ outs, ∃ f ∈ e.2, outPath d e.1 ++ "/" ++ f.1 = q := by
  rcases (mem_initialExisting d outs _ q).mp hq with ⟨e, he, hlf⟩
  unfold list_files at hlf
  rcases List.mem_filter.mp hlf with ⟨hkeys, hunder⟩
  have hlook := (mem_keys_iff_lookup _ q).mp hkeys
  unfold publishPhase at hlook
  rw [lookupFS_copyPhase] at hlook
  cases h : outsLookupLast d outs q with
  | some v =>
    rcases outsLookupLast_some_inv d h with ⟨e2, he2, f2, hf2, hpath, _⟩
    exact ⟨e2, he2, f2, hf2, hpath⟩
  | none =>
    exfalso
    rw [h, Option.none_or, lookupFS_deletePhase,
      if_pos (modulePaths_any_under d he hunder)] at hlook
    exact Bool.noConfusion hlook

theorem verifyFile_existing_subset (m : String) (fs : FS) (st : VerifyState)
    (rel content : String) :
    (verifyFile m fs st rel content).existing ⊆ st.existing := by
  unfold verifyFile
  cases lookupFS fs (m ++ "/" ++ basename rel) with
  | none => exact fun x hx => hx
  | some disk =>
    show (verifyFileDiff (m ++ "/" ++ basename rel) st content disk).existing ⊆ _
    unfold verifyFileDiff
    cases run_diff content disk with
    | ok u => exact List.erase_subset _ _
    | error msg => exact fun x hx => hx

theorem verifyFile_nodup (m : String) (fs : FS) (st : VerifyState)
    (rel content : String) (h : st.existing.Nodup) :
    (verifyFile m fs st rel content).existing.Nodup := by
  unfold verifyFile
  cases lookupFS fs (m ++ "/" ++ basename rel) with
  | none => exact h
  | some disk =>
    show (verifyFileDiff (m ++ "/" ++ basename rel) st content disk).existing.Nodup
    unfold verifyFileDiff
    cases run_diff content disk with
    | ok u => exact h.erase _
    | error msg => exact h

theorem verifyFile_not_mem {q : String} (m : String) (fs : FS) (st : VerifyState)
    (rel content : String) (h : q ∉ st.existing) :
    q ∉ (verifyFile m fs st rel content).existing :=
  fun hx => h (verifyFile_existing_subset m fs st rel content hx)

/-- A generated file whose on-disk counterpart holds exactly its content
passes the comparison and merely discards the matched path. -/
theorem verifyFile_clean (m : String) (fs : FS) (st : VerifyState) (rel content : String)
    (hdisk : lookupFS fs (m ++ "/" ++ basename rel) = some content) :
    (verifyFile m fs st rel content).errors = st.errors
      ∧ (verifyFile m fs st rel content).failed = st.failed
      ∧ (verifyFile m fs st rel content).existing
          = st.existing.erase (m ++ "/" ++ basename rel) := by
  unfold verifyFile
  rw [hdisk]
  show (verifyFileDiff (m ++ "/" ++ basename rel) st content content).errors = st.errors
    ∧ (verifyFileDiff (m ++ "/" ++ basename rel) st content content).failed = st.failed
    ∧ (verifyFileDiff (m ++ "/" ++ basename rel) st content content).existing
        = st.existing.erase (m ++ "/" ++ basename rel)
  unfold verifyFileDiff
  rw [run_diff_self]
  exact ⟨rfl, rfl, rfl⟩

set_option maxHeartbeats 1000000 in
/-- Rerunning verify over the tree publish just wrote reports nothing: every
generated file diffs clean against its own copy, and every file below a
touched location is matched and removed from the extra set. -/
theorem verifyPhase_clean_after_publish (d : BaseModelConfig)
    (outs : List (SourceConfig × GenTree)) (fs0 : FS)
    (hflat : ∀ e ∈ outs, ∀ f ∈ e.2, basename f.1 = f.1)
    (hnocol : ∀ e1 ∈ outs, ∀ f1 ∈ e1.2, ∀ e2 ∈ outs, ∀ f2 ∈ e2.2,
      outPath d e1.1 ++ "/" ++ f1.1 = outPath d e2.1 ++ "/" ++ f2.1 → f1.2 = f2.2) :
    (verifyPhase d outs (publishPhase d outs fs0)).failed = false
      ∧ (verifyPhase d outs (publishPhase d outs fs0)).errors = [] := by
  have htarget : ∀ e ∈ outs, ∀ f ∈ e.2,
      lookupFS (publishPhase d outs fs0) (outPath d e.1 ++ "/" ++ basename f.1)
        = some f.2 := by
    intro e he f hf
    rw [hflat e he f hf]
    exact publish_lookup_of_write d fs0 he hf hnocol
  have hclean : ∀ st1, st1 = outs.foldl (verifySource d (publishPhase d outs fs0))
      ⟨initialExisting d outs (publishPhase d outs fs0), [], false⟩ →
      st1.errors = [] ∧ st1.failed = false := by
    intro st1 hst1
    rw [hst1]
    refine foldl_pres_of_all (verifySource d (publishPhase d outs fs0))
      (fun st => st.errors = [] ∧ st.failed = false) outs ?_ _ ⟨rfl, rfl⟩
    intro st e he hst
    unfold verifySource
    refine foldl_pres_of_all _ (fun st => st.errors = [] ∧ st.failed = false) e.2
      ?_ st hst
    intro st' f hf hst'
    have hc := verifyFile_clean (outPath d e.1) (publishPhase d outs fs0) st' f.1 f.2
      (htarget e he f hf)
    exact ⟨hc.1.trans hst'.1, hc.2.1.trans hst'.2⟩
  have hempty : (outs.foldl (verifySource d (publishPhase d outs fs0))
      ⟨initialExisting d outs (publishPhase d outs fs0), [], false⟩).existing = [] := by
    rw [List.eq_nil_iff_forall_not_mem]
    intro q hq
    have hsub : (outs.foldl (verifySource d (publishPhase d outs fs0))
        ⟨initialExisting d outs (publishPhase d outs fs0), [], false⟩).existing
        ⊆ initialExisting d outs (publishPhase d outs fs0) := by
      refine foldl_pres_of_all (verifySource d (publishPhase d outs fs0))
        (fun st => st.existing ⊆ initialExisting d outs (publishPhase d outs fs0)) outs
        ?_ _ (fun x hx => hx)
      intro st e he hst
      unfold verifySource
      refine foldl_pres_of_all _
        (fun st => st.existing ⊆ initialExisting d outs (publishPhase d outs fs0)) e.2
        ?_ st hst
      intro st' f hf hst' x hx
      exact hst' (verifyFile_existing_subset _ _ st' f.1 f.2 hx)
    rcases publish_existing_from_write d outs fs0 (hsub hq) with ⟨e, he, f, hf, hpath⟩
    have hgone : q ∉ (outs.foldl (verifySource d (publishPhase d outs fs0))
        ⟨initialExisting d outs (publishPhase d outs fs0), [], false⟩).existing := by
      refine foldl_event (verifySource d (publishPhase d outs fs0))
        (fun st => st.existing.Nodup) (fun st => q ∉ st.existing) he
        ?_ ?_ ?_ _ (List.nodup_dedup _)
      · intro st e' he' hst
        unfold verifySource
        refine foldl_pres_of_all _ (fun st => st.existing.Nodup) e'.2 ?_ st hst
        intro st' f' hf' hst'
        exact verifyFile_nodup _ _ st' f'.1 f'.2 hst'
      · intro st e' he' _ hst
        unfold verifySource
        refine foldl_pres_of_all _ (fun st => q ∉ st.existing) e'.2 ?_ st hst
        intro st' f' hf' hst'
        exact verifyFile_not_mem _ _ st' f'.1 f'.2 hst'
      · intro st hst
        unfold verifySource
        refine foldl_event (fun acc g => verifyFile (outPath d e.1)
            (publishPhase d outs fs0) acc g.1 g.2)
          (fun st => st.existing.Nodup) (fun st => q ∉ st.existing) hf
          ?_ ?_ ?_ st hst
        · intro st' f' hf' hst'
          exact verifyFile_nodup _ _ st' f'.1 f'.2 hst'
        · intro st' f' hf' _ hst'
          exact verifyFile_not_mem _ _ st' f'.1 f'.2 hst'
        · intro st' hst'
          have hc := verifyFile_clean (outPath d e.1) (publishPhase d outs fs0) st' f.1 f.2
            (htarget e he f hf)
          rw [hc.2.2, hflat e he f hf, hpath]
          exact hst'.not_mem_erase
    exact hgone hq
  unfold verifyPhase reportExtras
  rw [hempty]
  have hc := hclean _ rfl
  simp only [List.isEmpty_nil, if_true]
  exact ⟨hc.2, hc.1⟩

/-- C5 counterexample: with one source whose generator (deterministically)
produces the nested file `sub/f.py`, running publish twice leaves the output
tree byte-identical — yet the subsequent verify run over the same inputs
exits 1, not 0: verify flattens the nested path to `m/f.py`, finds no such
file, and leaves `m/sub/f.py` behind as an extra file.  This refutes the
claim's unqualified "reports zero drift and zero extra files and exits 0". -/
theorem C5_counterexample_nested_output :
    (main ⟨[{ input := "a.yaml" }], ⟨"org/repo", "main", "", "m"⟩⟩
        (fun _ => Except.ok [("sub/f.py", "x")]) true
        (main ⟨[{ input := "a.yaml" }], ⟨"org/repo", "main", "", "m"⟩⟩
          (fun _ => Except.ok [("sub/f.py", "x")]) true []).fs).fs
      = (main ⟨[{ input := "a.yaml" }], ⟨"org/repo", "main", "", "m"⟩⟩
          (fun _ => Except.ok [("sub/f.py", "x")]) true []).fs
      ∧ (main ⟨[{ input := "a.yaml" }], ⟨"org/repo", "main", "", "m"⟩⟩
          (fun _ => Except.ok [("sub/f.py", "x")]) false
          (main ⟨[{ input := "a.yaml" }], ⟨"org/repo", "main", "", "m"⟩⟩
            (fun _ => Except.ok [("sub/f.py", "x")]) true []).fs).exitCode = 1 := by
  constructor
  · decide
  · decide

set_option maxHeartbeats 1000000 in
/-- C5, amended: publishing twice with identical inputs always leaves the
output tree byte-identical; the subsequent verify run over the same inputs
reports zero drift and zero extra files and exits 0 provided every source
generates successfully, every generated file sits at the top level of its
output (its relative path is its basename), and no two generated files land
on the same target path with different contents. -/
theorem C5_publish_idempotent_verify_clean (cfg : LithicConfig)
    (gen : Nat → Except String GenTree) (fs0 : FS)
    (hok : ∀ j, j < cfg.sources.length → (gen j).isOk = true)
    (hflat : ∀ e ∈ (processSources cfg.sources gen).outputs, ∀ f ∈ e.2,
        basename f.1 = f.1)
    (hnocol : ∀ e1 ∈ (processSources cfg.sources gen).outputs, ∀ f1 ∈ e1.2,
        ∀ e2 ∈ (processSources cfg.sources gen).outputs, ∀ f2 ∈ e2.2,
        outPath cfg.default e1.1 ++ "/" ++ f1.1 = outPath cfg.default e2.1 ++ "/" ++ f2.1 →
        f1.2 = f2.2) :
    (∀ p, lookupFS (main cfg gen true (main cfg gen true fs0).fs).fs p
        = lookupFS (main cfg gen true fs0).fs p)
      ∧ (main cfg gen false (main cfg gen true fs0).fs).exitCode = 0
      ∧ (main cfg gen false (main cfg gen true fs0).fs).errors = [] := by
  have hnofail := processAux_not_failed gen cfg.sources 0 (fun j hj => by
    cases hg : gen (0 + j) with
    | ok t => exact ⟨t, rfl⟩
    | error msg =>
      exfalso
      have hisok := hok j hj
      rw [show (0 : Nat) + j = j from by omega] at hg
      rw [hg] at hisok
      exact Bool.noConfusion hisok)
  have hnofail2 : (processSources cfg.sources gen).failed = false
      ∧ (processSources cfg.sources gen).errors = [] := hnofail
  have hclean := verifyPhase_clean_after_publish cfg.default
    (processSources cfg.sources gen).outputs fs0 hflat hnocol
  refine ⟨?_, ?_, ?_⟩
  · intro p
    exact publishPhase_idem cfg.default (processSources cfg.sources gen).outputs fs0 p
  · show (if (processSources cfg.sources gen).failed
        || (verifyPhase cfg.default (processSources cfg.sources gen).outputs
            (publishPhase cfg.default (processSources cfg.sources gen).outputs fs0)).failed
      then 1 else 0) = 0
    rw [hnofail2.1, hclean.1]
    rfl
  · show (processSources cfg.sources gen).errors
        ++ (verifyPhase cfg.default (processSources cfg.sources gen).outputs
            (publishPhase cfg.default (processSources cfg.sources gen).outputs fs0)).errors
      = []
    rw [hnofail2.2, hclean.2]
    rfl

/-- Witness for amended C5: one flat source published over a stale tree; the
second publish is pointwise identical at the sample paths and the verify
rerun is clean. -/
theorem C5_publish_idempotent_verify_clean_witness :
    lookupFS (main ⟨[{ input := "a.yaml" }], ⟨"org/repo", "main", "", "m"⟩⟩
        (fun _ => Except.ok [("a.py", "x")]) true
        (main ⟨[{ input := "a.yaml" }], ⟨"org/repo", "main", "", "m"⟩⟩
          (fun _ => Except.ok [("a.py", "x")]) true [("m/old.py", "O")]).fs).fs "m/a.py"
      = lookupFS (main ⟨[{ input := "a.yaml" }], ⟨"org/repo", "main", "", "m"⟩⟩
          (fun _ => Except.ok [("a.py", "x")]) true [("m/old.py", "O")]).fs "m/a.py"
      ∧ (main ⟨[{ input := "a.yaml" }], ⟨"org/repo", "main", "", "m"⟩⟩
          (fun _ => Except.ok [("a.py", "x")]) false
          (main ⟨[{ input := "a.yaml" }], ⟨"org/repo", "main", "", "m"⟩⟩
            (fun _ => Except.ok [("a.py", "x")]) true [("m/old.py", "O")]).fs).exitCode
        = 0 := by
  have h := C5_publish_idempotent_verify_clean
    ⟨[{ input := "a.yaml" }], ⟨"org/repo", "main", "", "m"⟩⟩
    (fun _ => Except.ok [("a.py", "x")]) [("m/old.py", "O")]
    (by decide) (by decide) (by decide)
  exact ⟨h.1 "m/a.py", h.2.1⟩

end Lithic
